import Mathlib

/-!
# Verification of plex-watcher core algorithms

A shallow embedding, in Lean, of the core path-handling and dispatch logic of
the `plex-watcher` Go backend, together with theorems settling the frozen
claims about it.

Conventions of the embedding:

* Paths are Lean `String`s.  The Go code runs on Linux, so
  `filepath.Separator` is `'/'`: `filepath.Clean`, `filepath.Join`,
  `filepath.Dir`, `filepath.Ext` are modelled with their Unix semantics
  (only `'/'` is a separator; `'\\'` is an ordinary byte), and
  `filepath.ToSlash` is the identity.
* `strings.ToLower` and `strings.TrimSpace` are modelled on the ASCII
  fragment (the Unicode tables coincide with ASCII case mapping there);
  all concrete inputs in the claims are ASCII.
* Go string indexing is by byte; all strings involved are ASCII, where
  bytes and characters coincide, so `List Char` positions model byte
  positions.
* Go maps are modelled by association lists (insertion ordered) or lists
  used as sets; the per-path / per-key facts proved below do not depend on
  iteration order, which in Go is unspecified.
-/

namespace PlexWatcher

/-! ## Go string primitives (Unix semantics) -/

/-- One step of `strings.ToLower`, ASCII fragment: map `'A'`–`'Z'` to
`'a'`–`'z'`, leave everything else unchanged. -/
def lowerChar (c : Char) : Char :=
  if 'A' ≤ c ∧ c ≤ 'Z' then Char.ofNat (c.toNat + 32) else c

/-- `strings.ToLower` (ASCII fragment). -/
def goToLower (s : String) : String :=
  String.mk (s.toList.map lowerChar)

/-- `strings.HasPrefix`. -/
def goHasPrefix (s pre : String) : Bool :=
  pre.toList.isPrefixOf s.toList

/-- ASCII white space, as recognised by `unicode.IsSpace` on the ASCII range. -/
def isSpaceChar (c : Char) : Bool :=
  c = ' ' || c = '\t' || c = '\n' || c = '\x0d' || c = '\x0b' || c = '\x0c'

/-- `strings.TrimSpace` (ASCII fragment). -/
def goTrimSpace (s : String) : String :=
  String.mk (((s.toList.dropWhile isSpaceChar).reverse.dropWhile isSpaceChar).reverse)

/-- Split a character list at every delimiter character, keeping empty
fields — the semantics of `strings.Split` for a one-character separator
(and the raw field structure underlying `strings.FieldsFunc`). -/
def splitChars (isDelim : Char → Bool) : List Char → List Char → List String
  | [], cur => [String.mk cur.reverse]
  | c :: cs, cur =>
      if isDelim c then String.mk cur.reverse :: splitChars isDelim cs []
      else splitChars isDelim cs (c :: cur)

/-- `strings.Split s (String.singleton d)`: split on a single character,
keeping empty fields. -/
def goSplitOn (s : String) (d : Char) : List String :=
  splitChars (fun c => c = d) s.toList []

/-- `strings.FieldsFunc` for a delimiter predicate: split and drop the empty
fields. -/
def goFieldsFunc (isDelim : Char → Bool) (s : String) : List String :=
  (splitChars isDelim s.toList []).filter (fun f => f ≠ "")

/-- Delimiter predicate used by `splitPathParts` in
`backend/internal/plex/path_mapper.go`: both `'/'` and `'\\'` are treated as
delimiters. -/
def isPathDelim (c : Char) : Bool := c = '/' || c = '\\'

/-! ### `filepath.Clean` (Unix)

`filepath.Clean` processes the `'/'`-separated elements of the path left to
right: empty elements and `"."` are dropped, `".."` pops the last kept
element when one is available, is dropped at the root of a rooted path, and
is kept (accumulating at the front) in a relative path.  The cleaned string
is the elements joined by `'/'`, prefixed by `'/'` when rooted, or `"."`
when nothing remains. -/

/-- Element processing of `filepath.Clean`.  `acc` is the stack of kept
elements, most recent first. -/
def cleanElems (rooted : Bool) : List String → List String → List String
  | [], acc => acc.reverse
  | e :: rest, acc =>
      if e = "" || e = "." then cleanElems rooted rest acc
      else if e = ".." then
        match acc with
        | [] => if rooted then cleanElems rooted rest []
                else cleanElems rooted rest [".."]
        | a :: acc' =>
            if a = ".." then cleanElems rooted rest (".." :: a :: acc')
            else cleanElems rooted rest acc'
      else cleanElems rooted rest (e :: acc)

/-- Does the path begin with `'/'` (Unix "rooted")? -/
def strRooted (s : String) : Bool :=
  match s.toList with
  | '/' :: _ => true
  | _ => false

/-- Join strings with the `'/'` separator (`strings.Join` with `"/"`). -/
def joinSlash : List String → String
  | [] => ""
  | [e] => e
  | e :: rest => e ++ "/" ++ joinSlash rest

/-- Render the kept elements back into a path string. -/
def renderClean (rooted : Bool) (elems : List String) : String :=
  if rooted then "/" ++ joinSlash elems
  else if elems = [] then "." else joinSlash elems

/-- `filepath.Clean`, Unix semantics. -/
def goClean (s : String) : String :=
  renderClean (strRooted s) (cleanElems (strRooted s) (goSplitOn s '/') [])

/-- `filepath.Join`, Unix semantics: drop empty arguments, join the rest
with `'/'` and `Clean` the result; all-empty input yields `""`.
(Go joins from the first non-empty element onwards, but `Clean` discards
the empty elements contributed by later empty arguments, so filtering all
empty arguments first is equivalent.) -/
def goJoin (elems : List String) : String :=
  let ne := elems.filter (fun e => e ≠ "")
  if ne = [] then "" else goClean (joinSlash ne)

/-- `filepath.Dir`, Unix semantics: drop the trailing non-separator run,
then `Clean` what is left (including the trailing separator). -/
def goDir (p : String) : String :=
  goClean (String.mk ((p.toList.reverse.dropWhile (fun c => c ≠ '/')).reverse))

/-- Helper for `goExt`: scan the reversed character list for the last
`'.'` before the last `'/'`. -/
def goExtAux : List Char → List Char → String
  | [], _ => ""
  | c :: rest, acc =>
      if c = '/' then ""
      else if c = '.' then String.mk ('.' :: acc)
      else goExtAux rest (c :: acc)

/-- `filepath.Ext`, Unix semantics: the suffix starting at the final `'.'`
in the final element of the path, or `""` if there is none. -/
def goExt (p : String) : String :=
  goExtAux p.toList.reverse []

/-- `filepath.ToSlash` replaces `filepath.Separator` by `'/'`; on Linux the
separator already is `'/'`, so it is the identity. -/
def goToSlash (s : String) : String := s

/-! ## Data model -/

/-- `types.PlexMediaType` (`"movie"` / `"show"`). -/
inductive MediaType where
  | movie
  | show
deriving DecidableEq, Repr

/-- `types.PlexSection`: a Plex library section. -/
structure PlexSection where
  sectionKey : Int
  sectionTitle : String
  sectionType : MediaType
  rootPath : String
deriving DecidableEq, Repr

/-- The zero value of the Go struct `types.PlexSection`, used as the initial
`bestSectionRoot` in `mapToPlexPath`. -/
def zeroSection : PlexSection :=
  { sectionKey := 0, sectionTitle := "", sectionType := MediaType.movie, rootPath := "" }

/-- `types.WatchDir`: a configured directory/service binding. -/
structure WatchDir where
  path : String
  service : String
  enabled : Bool
deriving DecidableEq, Repr

/-- `types.ServicePlex`. -/
def servicePlex : String := "plex"

/-- `types.ServiceAudiobookshelf`. -/
def serviceAudiobookshelf : String := "audiobookshelf"

/-! ## The path mapper (`backend/internal/plex/path_mapper.go`) -/

/-- `splitPathParts` from `path_mapper.go`: `Clean` the path, return no
components for `"."` and `"/"`, otherwise split on both `'/'` and `'\\'`
(`strings.FieldsFunc`) and drop fields that are empty or equal to the
separator string. -/
def splitPathParts (p : String) : List String :=
  let p := goClean p
  if p = "." || p = "/" then []
  else (goFieldsFunc isPathDelim p).filter (fun s => s ≠ "" && s ≠ "/")

/-- The `toLower` helper from `path_mapper.go`: lower-case every component. -/
def toLowerList (xs : List String) : List String :=
  xs.map goToLower

/-- The inner index loop of `mapToPlexPath`: slide a suffix window over the
local components, returning the first index at which every component
matches (`equalString`), if any.  Go iterates `idx` from `0` to
`len(local) - k`; indices where fewer than `k` components remain cannot
match, so testing `isPrefixOf` along the list is equivalent. -/
def slideMatch (localLower : List String) (suffix : List String) : Option Nat :=
  match localLower with
  | [] => if suffix = [] then some 0 else none
  | _ :: rest =>
      if suffix.isPrefixOf localLower then some 0
      else (slideMatch rest suffix).map (· + 1)

/-- The running best match of `mapToPlexPath`: the matched suffix length
`bestK`, the remaining local components `bestChildren`, and the owning
section `bestSectionRoot`. -/
structure BestMatch where
  k : Nat
  children : List String
  root : PlexSection
deriving Repr

/-- The per-root `k` loop of `mapToPlexPath`, iterating `k` from the number
of root components down to `1`.  A match is recorded only when `k > bestK`,
and recording sets `bestK = k`; after the sliding search the loop breaks as
soon as `bestK == k`, so a recording iteration returns at once (Go breaks
out of both loops), and an iteration that matched without recording either
breaks on the tie `bestK == k` or continues downward. -/
def kLoop (localParts localLower rootLower : List String) (root : PlexSection) :
    Nat → BestMatch → BestMatch
  | 0, best => best
  | k + 1, best =>
      match slideMatch localLower (rootLower.drop (rootLower.length - (k + 1))) with
      | some idx =>
          if k + 1 > best.k then
            { k := k + 1, children := localParts.drop (idx + (k + 1)), root := root }
          else if best.k = k + 1 then best
          else kLoop localParts localLower rootLower root k best
      | none =>
          if best.k = k + 1 then best
          else kLoop localParts localLower rootLower root k best

/-- The outer loop of `mapToPlexPath` over the section roots: roots with an
empty `RootPath` or no components are skipped, every other root runs the
`k` loop. -/
def rootsLoop (localParts localLower : List String) :
    List PlexSection → BestMatch → BestMatch
  | [], best => best
  | root :: rest, best =>
      if root.rootPath = "" then rootsLoop localParts localLower rest best
      else
        let rootParts := splitPathParts root.rootPath
        if rootParts = [] then rootsLoop localParts localLower rest best
        else
          let rootLower := toLowerList rootParts
          rootsLoop localParts localLower rest
            (kLoop localParts localLower rootLower root rootParts.length best)

/-- `mapToPlexPath` from `path_mapper.go`: longest-suffix matching of the
local path's components against each root's components (case-insensitive),
then join the best root with the remaining children and normalise to
forward slashes.  Returns `("", none)` when the local path has no
components or no root matched. -/
def mapToPlexPath (localPath : String) (sectionRoots : List PlexSection) :
    String × Option PlexSection :=
  let localParts := splitPathParts localPath
  if localParts = [] then ("", none)
  else
    let localLower := toLowerList localParts
    let best := rootsLoop localParts localLower sectionRoots
      { k := 0, children := [], root := zeroSection }
    if best.root.rootPath = "" then ("", none)
    else
      (goToSlash (goJoin (goClean best.root.rootPath :: best.children)), some best.root)

/-! ## The Plex scanner (`internal/plex/scanner.go`) -/

/-- `isDigit` from `scanner.go`: ASCII digit test. -/
def isDigitChar (c : Char) : Bool := '0' ≤ c && c ≤ '9'

/-- The season-folder test inside `Scanner.getShowRootPath`: the
lower-cased component starts with `"season"`, is longer than 6 bytes, and
after trimming spaces the remainder starts with a digit. -/
def isSeasonPart (part : String) : Bool :=
  let partLower := goToLower part
  goHasPrefix partLower "season" && partLower.toList.length > 6 &&
    (match (goTrimSpace (String.mk (partLower.toList.drop 6))).toList with
     | [] => false
     | c :: _ => isDigitChar c)

/-- `Scanner.getShowRootPath`: split on the separator, drop every component
that looks like a season folder, and `filepath.Join` what is left. -/
def getShowRootPath (path : String) : String :=
  goJoin ((goSplitOn path '/').filter (fun part => !(isSeasonPart part)))

/-- `Scanner.GetScanPath`: for shows, strip season folders via
`getShowRootPath`; for movies, the parent directory of the cleaned path. -/
def getScanPath (path : String) (mediaType : MediaType) : String :=
  let cleanPath := goClean path
  if mediaType = MediaType.show then getShowRootPath cleanPath
  else goDir cleanPath

/-- `NewScanner` sorts the discovered section roots by `len(RootPath)`
descending (`sort.Slice`); this predicate captures that ordering of the
resulting list. -/
def rootsSortedByLenDesc (roots : List PlexSection) : Prop :=
  roots.Pairwise (fun a b => b.rootPath.length ≤ a.rootPath.length)

/-! ## Service routing (`internal/watcher_manager/manager.go`) -/

/-- The loop state of `findServiceForPath`: the longest matching watch path
seen so far and its service (Go zero values `""`). -/
structure RouteState where
  longestMatch : String
  matchedService : String
deriving Repr, DecidableEq

/-- The loop body of `findServiceForPath` over the configured watch dirs:
disabled dirs are skipped; an enabled dir whose lower-cased cleaned path is
a string prefix of the lower-cased cleaned event path replaces the current
match when strictly longer.  There is no component-boundary check. -/
def routeLoop (lower : String) : List WatchDir → RouteState → RouteState
  | [], st => st
  | dir :: rest, st =>
      if !dir.enabled then routeLoop lower rest st
      else
        let watchPath := goToLower (goClean dir.path)
        if goHasPrefix lower watchPath && watchPath.length > st.longestMatch.length then
          routeLoop lower rest { longestMatch := watchPath, matchedService := dir.service }
        else routeLoop lower rest st

/-- `findServiceForPath`: longest-prefix routing of an event path to a
service; returns `""` when no enabled watch dir matches. -/
def findServiceForPath (eventPath : String) (watchDirs : List WatchDir) : String :=
  let lower := goToLower (goClean eventPath)
  (routeLoop lower watchDirs { longestMatch := "", matchedService := "" }).matchedService

/-! ## Watcher manager lifecycle (`internal/watcher_manager/manager.go`) -/

/-- The state of `watcher_manager.Manager` relevant to `Stop`: whether a
watcher is running and whether a cancel function is installed. -/
structure ManagerState where
  running : Bool
  hasCancel : Bool
deriving DecidableEq, Repr

/-- `Manager.Stop` (run under the manager mutex).  If the manager is not
running it returns the error `"watcher not running"` and changes nothing.
Otherwise it cancels the context, stops the watcher (whose error result is
the parameter `watcherStopErr`), clears the cancel function and the running
flag, and propagates the watcher's error. -/
def managerStop (watcherStopErr : Option String) (m : ManagerState) :
    ManagerState × Option String :=
  if !m.running then (m, some "watcher not running")
  else ({ running := false, hasCancel := false }, watcherStopErr)

/-! ## Event validation and dispatch handlers (`internal/api`) -/

/-- A filesystem event as delivered to the handlers
(`fs_watcher.Event`): a path, an operation bitmask, and whether the error
field is set. -/
structure Event where
  path : String
  op : Nat
  hasErr : Bool := false
deriving DecidableEq, Repr

/-- fsnotify operation bits. -/
def opCreate : Nat := 1
/-- fsnotify `Write`. -/
def opWrite : Nat := 2
/-- fsnotify `Remove`. -/
def opRemove : Nat := 4
/-- fsnotify `Rename`. -/
def opRename : Nat := 8
/-- fsnotify `Chmod`. -/
def opChmod : Nat := 16

/-- `ensureExtAllowed`: the lower-cased `filepath.Ext` of the path equals
one of the allowed extensions. -/
def ensureExtAllowed (path : String) (allowedExts : List String) : Bool :=
  allowedExts.any (fun allowExt => goToLower (goExt path) = allowExt)

/-- `validateEventAndExtension` from `internal/api`: drop error events,
extensionless paths, and paths with a disallowed extension. -/
def validateEventAndExtension (e : Event) (allowedExts : List String) : Bool :=
  if e.hasErr then false
  else if goToLower (goExt e.path) = "" then false
  else ensureExtAllowed e.path allowedExts

/-- The default `SUPPORTED_EXTENSIONS` list from the server configuration. -/
def defaultExts : List String :=
  [".mp4", ".mkv", ".avi", ".mov", ".divx", ".mp3", ".m4a", ".flac", ".wma"]

/-- The synchronous part of `Handler.handleAbsUpdate`
(`internal/api/handler_start.go`): validate the event, compute the scan
target as the slash-normalised parent directory, and either drop the event
(target already in `activeScans`) or insert the target and dispatch a scan
for it.  Returns the updated `activeScans` set and the dispatched target,
if any. -/
def handleAbsUpdate (e : Event) (allowedExts : List String)
    (activeScans : List String) : List String × Option String :=
  if !validateEventAndExtension e allowedExts then (activeScans, none)
  else
    let targetDir := goToSlash (goDir e.path)
    if activeScans.contains targetDir then (activeScans, none)
    else (targetDir :: activeScans, some targetDir)

/-- The scan goroutine of `handleAbsUpdate` after `abs.ScanPath` returns
(success or failure): it only releases the semaphore token — the target is
never removed from `activeScans`. -/
def absScanComplete (activeScans : List String) (_target : String) : List String :=
  activeScans

/-- The synchronous part of `Handler.handlePlexUpdate`: validate, map the
event path to a Plex path to find the owning section, compute the local
scan target with `GetScanPath`, re-map it to a Plex path, normalise to
forward slashes, and deduplicate against `activeScans`. -/
def handlePlexUpdate (e : Event) (allowedExts : List String)
    (roots : List PlexSection) (activeScans : List String) :
    List String × Option String :=
  if !validateEventAndExtension e allowedExts then (activeScans, none)
  else
    match (mapToPlexPath e.path roots).2 with
    | none => (activeScans, none)
    | some sec =>
        let localScanTarget := getScanPath e.path sec.sectionType
        let res := mapToPlexPath localScanTarget roots
        match res.2 with
        | none => (activeScans, none)
        | some _ =>
            if res.1 = "" then (activeScans, none)
            else
              let targetDir := goToSlash res.1
              if activeScans.contains targetDir then (activeScans, none)
              else (targetDir :: activeScans, some targetDir)

/-- The scan goroutine of `handlePlexUpdate` after `plex.ScanPath` returns
(success or failure): the target is deleted from `activeScans`. -/
def plexScanComplete (activeScans : List String) (target : String) : List String :=
  activeScans.filter (fun p => p ≠ target)

/-- The per-path target computation of `handlePlexManualScan`
(`internal/api/handler_scan.go`): map the path, then use the mapped path
as-is when the input has no extension, its parent directory when the
extension is allowed, and skip the path otherwise.  `none` means nothing is
dispatched for this path. -/
def manualScanTarget (allowedExts : List String) (roots : List PlexSection)
    (path : String) : Option String :=
  match (mapToPlexPath path roots) with
  | (_, none) => none
  | (plexPath, some _) =>
      let ext := goToLower (goExt path)
      if ext = "" then some (goToSlash plexPath)
      else if ensureExtAllowed path allowedExts then some (goToSlash (goDir plexPath))
      else none

/-- `handlePlexManualScan` loops over the requested paths and dispatches a
scan goroutine for every computed target, in order and without any
deduplication. -/
def manualScanTargets (allowedExts : List String) (roots : List PlexSection)
    (paths : List String) : List String :=
  paths.filterMap (manualScanTarget allowedExts roots)

/-! ## Concurrency limit (`cmd/server` env loader and `api.NewAPI`) -/

/-- `strconv.Atoi`: an optional sign followed by at least one ASCII digit,
rejecting anything else and values outside the 64-bit integer range. -/
def goAtoi (s : String) : Option Int :=
  let parseDigits : List Char → Option Nat := fun ds =>
    if ds = [] || !ds.all isDigitChar then none
    else some (ds.foldl (fun acc c => acc * 10 + (c.toNat - '0'.toNat)) 0)
  let (neg, digits) :=
    match s.toList with
    | '-' :: rest => (true, rest)
    | '+' :: rest => (false, rest)
    | cs => (false, cs)
  match parseDigits digits with
  | none => none
  | some n =>
      let v : Int := if neg then -(n : Int) else (n : Int)
      if v < -(2 ^ 63) || v > 2 ^ 63 - 1 then none else some v

/-- `tryLoadEnvInt`: the environment value (`none` for unset, which
`os.Getenv` reports as `""`) parsed with `strconv.Atoi`, falling back to
the default on absence or parse failure. -/
def tryLoadEnvInt (envVal : Option String) (defaultVal : Int) : Int :=
  match envVal with
  | none => defaultVal
  | some valStr =>
      if valStr = "" then defaultVal
      else
        match goAtoi valStr with
        | none => defaultVal
        | some v => v

/-- The concurrency-limit coercion in `api.NewAPI`: values `≤ 0` become 1. -/
def newApiConcurrency (concurrency : Int) : Int :=
  if concurrency ≤ 0 then 1 else concurrency

/-- The effective scan-semaphore capacity for a given
`CONCURRENCY_LIMIT` environment value: `tryLoadEnvInt` with default 10,
then the `NewAPI` coercion. -/
def semaphoreCapacity (envVal : Option String) : Nat :=
  (newApiConcurrency (tryLoadEnvInt envVal 10)).toNat

/-! ### The scan-semaphore discipline

Every dispatched scan goroutine runs
`h.scanSemaphore <- struct{}{}` (blocking until a buffer slot of the
channel of capacity `cap` is free), then the scan call, then releases the
slot (`defer func() { <-h.scanSemaphore }()`).  We model each goroutine by
a phase — `waiting` (created, blocked on the semaphore), `running`
(holding a slot, executing the scan call), `finished` (scan returned, slot
released) — and the system by the list of phases.  A goroutine may enter
`running` only when fewer than `cap` goroutines are `running`, which is
exactly the buffered-channel semantics: the number of unreceived sends is
the number of held slots. -/

/-- Phase of a dispatched scan goroutine. -/
inductive ScanPhase where
  | waiting
  | running
  | finished
deriving DecidableEq, Repr

/-- The number of goroutines currently executing the scan call. -/
def countRunning : List ScanPhase → Nat
  | [] => 0
  | t :: rest => (if t = ScanPhase.running then 1 else 0) + countRunning rest

/-- Interleaving steps of the scan goroutines under a semaphore of
capacity `cap`. -/
inductive SemStep (cap : Nat) : List ScanPhase → List ScanPhase → Prop
  | acquire (l1 l2 : List ScanPhase)
      (h : countRunning (l1 ++ ScanPhase.waiting :: l2) < cap) :
      SemStep cap (l1 ++ ScanPhase.waiting :: l2) (l1 ++ ScanPhase.running :: l2)
  | release (l1 l2 : List ScanPhase) :
      SemStep cap (l1 ++ ScanPhase.running :: l2) (l1 ++ ScanPhase.finished :: l2)

/-- States reachable by the scan goroutines: initially every dispatched
goroutine is waiting on the semaphore, then any interleaving of acquire
and release steps. -/
inductive SemReachable (cap : Nat) : List ScanPhase → Prop
  | init (ts : List ScanPhase) (h : ∀ t ∈ ts, t = ScanPhase.waiting) :
      SemReachable cap ts
  | step {s s' : List ScanPhase} :
      SemReachable cap s → SemStep cap s s' → SemReachable cap s'

/-! ## The observer event loop (`internal/fs_watcher`, `eventLoop`) -/

/-- A raw fsnotify event as read from the watcher's event channel
(`event.Name`, `event.Op`). -/
structure FsEvent where
  name : String
  op : Nat
deriving DecidableEq, Repr

/-- Go map read `pending[name]` with the zero value `0` for a missing
key. -/
def pendingLookup : List (String × Nat) → String → Nat
  | [], _ => 0
  | (p, o) :: rest, q => if p = q then o else pendingLookup rest q

/-- Go map write `pending[name] = op`: update the existing entry or add a
new one. -/
def pendingStore : List (String × Nat) → String → Nat → List (String × Nat)
  | [], q, v => [(q, v)]
  | (p, o) :: rest, q, v =>
      if p = q then (q, v) :: rest else (p, o) :: pendingStore rest q v

/-- One iteration of the event-channel case of `eventLoop` for a content
event: with `debounce ≤ 0` the handler is invoked immediately; otherwise
the event's op is OR-ed into the pending table
(`pending[event.Name] |= event.Op`) and the timer is re-armed.  Returns
the new pending table and the handler invocations made by this
iteration. -/
def eventStep (debounce : Int) (pending : List (String × Nat)) (e : FsEvent) :
    List (String × Nat) × List Event :=
  if debounce ≤ 0 then (pending, [{ path := e.name, op := e.op }])
  else (pendingStore pending e.name (Nat.lor (pendingLookup pending e.name) e.op), [])

/-- The `flush` closure of `eventLoop`: invoke the handler once for every
pending entry, then clear the table. -/
def flushPending (pending : List (String × Nat)) : List (String × Nat) × List Event :=
  ([], pending.map (fun pr => { path := pr.1, op := pr.2 }))

/-- Run one debounce window of `eventLoop`: starting from an empty pending
table (the previous flush cleared it), process a stream of content events
from the event channel, then fire the debounce timer (flush).  Returns
all handler invocations (in-stream ones first, then the flush) and the
final pending table. -/
def runWindow (debounce : Int) (events : List FsEvent) : List Event × List (String × Nat) :=
  let step := fun (acc : List (String × Nat) × List Event) (e : FsEvent) =>
    let r := eventStep debounce acc.1 e
    (r.1, acc.2 ++ r.2)
  let processed := events.foldl step ([], [])
  let flushed := flushPending processed.1
  (processed.2 ++ flushed.2, flushed.1)

/-- The bitwise OR of the ops of all events in the stream carrying the
given path. -/
def orOfOps (events : List FsEvent) (path : String) : Nat :=
  ((events.filter (fun e => e.name = path)).map FsEvent.op).foldl Nat.lor 0

/-! ## Declarative reading of the path mapper

The following definitions give a direct description of what the loops of
`mapToPlexPath` compute — the best suffix-match length of a single root,
the index of its first match, the resulting children — and are proved
equivalent to the operational loops below.  Theorem statements about the
mapper are phrased through them. -/

/-- The last `k` components of a root (`rootLower[len-k:]`). -/
def suffixAt (rootLower : List String) (k : Nat) : List String :=
  rootLower.drop (rootLower.length - k)

/-- The largest `k' ≤ k` (and `k' ≥ 1`) whose length-`k'` root suffix
occurs as a window of the local components, or `0` if none does. -/
def bestKAux (localLower rootLower : List String) : Nat → Nat
  | 0 => 0
  | k + 1 =>
      if (slideMatch localLower (suffixAt rootLower (k + 1))).isSome then k + 1
      else bestKAux localLower rootLower k

/-- The best suffix-match length of a root against the local components. -/
def ownBestK (localLower rootLower : List String) : Nat :=
  bestKAux localLower rootLower rootLower.length

/-- The first index at which the length-`k` root suffix matches. -/
def matchIdx (localLower rootLower : List String) (k : Nat) : Nat :=
  (slideMatch localLower (suffixAt rootLower k)).getD 0

/-- The children a root would contribute: the local components after its
best match window. -/
def ownChildren (localParts localLower : List String) (r : PlexSection) : List String :=
  let rootLower := toLowerList (splitPathParts r.rootPath)
  localParts.drop
    (matchIdx localLower rootLower (ownBestK localLower rootLower)
      + ownBestK localLower rootLower)

/-- The best suffix-match length of a section root against a local path. -/
def ownK (localPath : String) (r : PlexSection) : Nat :=
  ownBestK (toLowerList (splitPathParts localPath))
    (toLowerList (splitPathParts r.rootPath))

/-- Declarative form of the outer loop of `mapToPlexPath`: fold over the
roots, replacing the running best exactly when a root's best match length
is strictly greater. -/
def bestSpec (localParts localLower : List String) :
    List PlexSection → BestMatch → BestMatch
  | [], best => best
  | r :: rest, best =>
      let K := ownBestK localLower (toLowerList (splitPathParts r.rootPath))
      bestSpec localParts localLower rest
        (if best.k < K then
          { k := K, children := ownChildren localParts localLower r, root := r }
         else best)

/-- A root shares a suffix window with a local path: some non-empty suffix
of the root's components occurs (case-insensitively) as a window of the
local path's components. -/
def sharesSuffixWindow (localPath : String) (r : PlexSection) : Prop :=
  ∃ k, 1 ≤ k ∧ k ≤ (splitPathParts r.rootPath).length ∧
    (slideMatch (toLowerList (splitPathParts localPath))
      (suffixAt (toLowerList (splitPathParts r.rootPath)) k)).isSome = true

/-- The length of a watch dir's lower-cased cleaned path, the quantity
`findServiceForPath` maximises. -/
def dirMatchLen (d : WatchDir) : Nat :=
  (goToLower (goClean d.path)).length

/-- A watch dir matches a (lower-cased, cleaned) event path: it is enabled
and its lower-cased cleaned path is a string prefix of the event path. -/
def dirMatches (lower : String) (d : WatchDir) : Prop :=
  d.enabled = true ∧ goHasPrefix lower (goToLower (goClean d.path)) = true

instance (lower : String) (d : WatchDir) : Decidable (dirMatches lower d) :=
  inferInstanceAs (Decidable (_ ∧ _))

/-- The cleaned components of the path contain no relative (`"."` or
`".."`) entries. -/
def noRelComponents (p : String) : Prop :=
  ∀ c ∈ splitPathParts p, c ≠ "." ∧ c ≠ ".."

/-! # Lemmas -/

/-! ## Strings and `filepath.Clean` basics -/

lemma goToLower_data (s : String) : (goToLower s).data = s.data.map lowerChar := rfl

lemma goToLower_length (s : String) : (goToLower s).length = s.length := by
  show (s.data.map lowerChar).length = s.data.length
  exact List.length_map _ _

lemma string_eq_of_data (s t : String) (h : s.data = t.data) : s = t := by
  cases s; cases t; exact congrArg String.mk h

lemma string_length_pos_of_ne (s : String) (h : s ≠ "") : 0 < s.length := by
  rcases hd : s.data with _ | _
  · exact absurd (string_eq_of_data s "" (by simp [hd])) h
  · simp [String.length, hd]

/-- Unfolding equation for `cleanElems` on a cons cell. -/
lemma cleanElems_cons (rooted : Bool) (el : String) (rest acc : List String) :
    cleanElems rooted (el :: rest) acc =
      if el = "" || el = "." then cleanElems rooted rest acc
      else if el = ".." then
        match acc with
        | [] => if rooted then cleanElems rooted rest []
                else cleanElems rooted rest [".."]
        | a :: acc' =>
            if a = ".." then cleanElems rooted rest (".." :: a :: acc')
            else cleanElems rooted rest acc'
      else cleanElems rooted rest (el :: acc) := by
  cases acc <;> rfl

/-- Every element kept by `cleanElems` is neither empty nor `"."`. -/
lemma mem_cleanElems (rooted : Bool) :
    ∀ (els acc : List String), (∀ a ∈ acc, a ≠ "" ∧ a ≠ ".") →
      ∀ e ∈ cleanElems rooted els acc, e ≠ "" ∧ e ≠ "." := by
  intro els
  induction els with
  | nil =>
      intro acc hacc e he
      exact hacc e (List.mem_reverse.mp (show e ∈ acc.reverse from he))
  | cons el rest ih =>
      intro acc hacc e he
      rw [cleanElems_cons] at he
      by_cases h1 : (el = "" || el = ".") = true
      · rw [if_pos h1] at he
        exact ih acc hacc e he
      · rw [if_neg h1] at he
        by_cases h2 : el = ".."
        · rw [if_pos h2] at he
          rcases acc with _ | ⟨a, acc'⟩
          · replace he : e ∈ if rooted = true then cleanElems rooted rest []
                else cleanElems rooted rest [".."] := he
            by_cases hr : rooted = true
            · rw [if_pos hr] at he
              exact ih [] (by intro a ha; cases ha) e he
            · rw [if_neg hr] at he
              refine ih [".."] ?_ e he
              intro b hb
              rcases List.mem_singleton.mp hb with rfl
              exact ⟨by decide, by decide⟩
          · replace he : e ∈ if a = ".." then cleanElems rooted rest (".." :: a :: acc')
                else cleanElems rooted rest acc' := he
            by_cases ha2 : a = ".."
            · rw [if_pos ha2] at he
              refine ih (".." :: a :: acc') ?_ e he
              intro b hb
              rcases List.mem_cons.mp hb with rfl | hb
              · exact ⟨by decide, by decide⟩
              · exact hacc b hb
            · rw [if_neg ha2] at he
              refine ih acc' ?_ e he
              intro b hb
              exact hacc b (List.mem_cons_of_mem a hb)
        · rw [if_neg h2] at he
          refine ih (el :: acc) ?_ e he
          intro b hb
          rcases List.mem_cons.mp hb with rfl | hb
          · constructor
            · intro hb2; exact h1 (by simp [hb2])
            · intro hb2; exact h1 (by simp [hb2])
          · exact hacc b hb

lemma joinSlash_ne_empty (els : List String) (hne : els ≠ [])
    (h : ∀ e ∈ els, e ≠ "") : joinSlash els ≠ "" := by
  cases els with
  | nil => exact absurd rfl hne
  | cons e tail =>
      cases tail with
      | nil =>
          show e ≠ ""
          exact h e (by simp)
      | cons f rest =>
          show e ++ "/" ++ joinSlash (f :: rest) ≠ ""
          intro hcontra
          have hdata : (e ++ "/" ++ joinSlash (f :: rest)).data = [] := by
            rw [hcontra]
          rw [String.data_append, String.data_append] at hdata
          rcases List.append_eq_nil.mp hdata with ⟨h1, _⟩
          rcases List.append_eq_nil.mp h1 with ⟨_, h3⟩
          exact absurd h3 (by decide)

lemma renderClean_ne_empty (rooted : Bool) (els : List String)
    (h : ∀ e ∈ els, e ≠ "") : renderClean rooted els ≠ "" := by
  rw [renderClean]
  by_cases hr : rooted = true
  · rw [if_pos hr]
    intro hcontra
    have hdata : ("/" ++ joinSlash els).data = [] := by rw [hcontra]
    rw [String.data_append] at hdata
    rcases List.append_eq_nil.mp hdata with ⟨h1, _⟩
    exact absurd h1 (by decide)
  · rw [if_neg hr]
    by_cases hne : els = []
    · rw [if_pos hne]; decide
    · rw [if_neg hne]; exact joinSlash_ne_empty els hne h

/-- `filepath.Clean` never returns the empty string. -/
lemma goClean_ne_empty (s : String) : goClean s ≠ "" := by
  refine renderClean_ne_empty _ _ ?_
  intro e he
  exact (mem_cleanElems _ _ [] (by intro a ha; cases ha) e he).1

lemma goToLower_eq_empty_iff (s : String) : goToLower s = "" ↔ s = "" := by
  constructor
  · intro h
    have hd : s.data.map lowerChar = [] := by
      have := congrArg String.data h
      simpa [goToLower_data] using this
    exact string_eq_of_data s "" (by simpa using List.map_eq_nil_iff.mp hd)
  · intro h; rw [h]; rfl

/-! ## Service routing -/

/-- Full characterisation of the `findServiceForPath` fold: either no dir
beats the incoming state (which is returned unchanged), or the result
matches some dir of maximal match length that strictly beats the incoming
state. -/
lemma routeLoop_spec (lower : String) (dirs : List WatchDir) (st : RouteState) :
    (routeLoop lower dirs st = st ∧
      ∀ d ∈ dirs, dirMatches lower d → dirMatchLen d ≤ st.longestMatch.length) ∨
    (∃ d ∈ dirs, dirMatches lower d ∧
      (routeLoop lower dirs st).matchedService = d.service ∧
      (routeLoop lower dirs st).longestMatch = goToLower (goClean d.path) ∧
      st.longestMatch.length < dirMatchLen d ∧
      ∀ d' ∈ dirs, dirMatches lower d' → dirMatchLen d' ≤ dirMatchLen d) := by
  induction dirs generalizing st with
  | nil =>
      left
      exact ⟨rfl, by intro d hd; cases hd⟩
  | cons d rest ih =>
      by_cases hen : d.enabled = true
      · by_cases hpre : goHasPrefix lower (goToLower (goClean d.path)) = true
        · by_cases hlen : st.longestMatch.length < (goToLower (goClean d.path)).length
          · -- d beats the current state
            have hstep : routeLoop lower (d :: rest) st =
                routeLoop lower rest
                  { longestMatch := goToLower (goClean d.path), matchedService := d.service } := by
              rw [routeLoop]
              simp [hen, hpre, hlen]
            rcases ih { longestMatch := goToLower (goClean d.path),
                        matchedService := d.service } with ⟨heq, hbound⟩ | ⟨d', hd', hm', hs', hl', hlt', hmax'⟩
            · right
              refine ⟨d, List.mem_cons_self _ _, ⟨hen, hpre⟩, ?_, ?_, hlen, ?_⟩
              · rw [hstep, heq]
              · rw [hstep, heq]
              · intro d' hd' hm'
                rcases List.mem_cons.mp hd' with rfl | hd'
                · exact le_refl _
                · exact hbound d' hd' hm'
            · right
              refine ⟨d', List.mem_cons_of_mem d hd', hm', ?_, ?_, ?_, ?_⟩
              · rw [hstep]; exact hs'
              · rw [hstep]; exact hl'
              · exact lt_trans hlen hlt'
              · intro d'' hd'' hm''
                rcases List.mem_cons.mp hd'' with rfl | hd''
                · exact le_of_lt hlt'
                · exact hmax' d'' hd'' hm''
          · -- d matches but does not beat the state
            have hstep : routeLoop lower (d :: rest) st = routeLoop lower rest st := by
              rw [routeLoop]
              simp [hen, hpre, hlen]
            rcases ih st with ⟨heq, hbound⟩ | ⟨d', hd', hm', hs', hl', hlt', hmax'⟩
            · left
              refine ⟨by rw [hstep, heq], ?_⟩
              intro d' hd' hm'
              rcases List.mem_cons.mp hd' with rfl | hd'
              · exact Nat.le_of_not_lt hlen
              · exact hbound d' hd' hm'
            · right
              refine ⟨d', List.mem_cons_of_mem d hd', hm', by rw [hstep]; exact hs',
                by rw [hstep]; exact hl', hlt', ?_⟩
              intro d'' hd'' hm''
              rcases List.mem_cons.mp hd'' with rfl | hd''
              · exact le_trans (Nat.le_of_not_lt hlen) (le_of_lt hlt')
              · exact hmax' d'' hd'' hm''
        · -- d does not prefix-match
          have hstep : routeLoop lower (d :: rest) st = routeLoop lower rest st := by
            rw [routeLoop]
            simp [hen, hpre]
          have hnm : ¬ dirMatches lower d := fun hm => hpre hm.2
          rcases ih st with ⟨heq, hbound⟩ | ⟨d', hd', hm', hs', hl', hlt', hmax'⟩
          · left
            refine ⟨by rw [hstep, heq], ?_⟩
            intro d' hd' hm'
            rcases List.mem_cons.mp hd' with rfl | hd'
            · exact absurd hm' hnm
            · exact hbound d' hd' hm'
          · right
            refine ⟨d', List.mem_cons_of_mem d hd', hm', by rw [hstep]; exact hs',
              by rw [hstep]; exact hl', hlt', ?_⟩
            intro d'' hd'' hm''
            rcases List.mem_cons.mp hd'' with rfl | hd''
            · exact absurd hm'' hnm
            · exact hmax' d'' hd'' hm''
      · -- d is disabled
        have hstep : routeLoop lower (d :: rest) st = routeLoop lower rest st := by
          rw [routeLoop]
          simp [hen]
        have hnm : ¬ dirMatches lower d := fun hm => hen hm.1
        rcases ih st with ⟨heq, hbound⟩ | ⟨d', hd', hm', hs', hl', hlt', hmax'⟩
        · left
          refine ⟨by rw [hstep, heq], ?_⟩
          intro d' hd' hm'
          rcases List.mem_cons.mp hd' with rfl | hd'
          · exact absurd hm' hnm
          · exact hbound d' hd' hm'
        · right
          refine ⟨d', List.mem_cons_of_mem d hd', hm', by rw [hstep]; exact hs',
            by rw [hstep]; exact hl', hlt', ?_⟩
          intro d'' hd'' hm''
          rcases List.mem_cons.mp hd'' with rfl | hd''
          · exact absurd hm'' hnm
          · exact hmax' d'' hd'' hm''

lemma countRunning_append (l1 l2 : List ScanPhase) :
    countRunning (l1 ++ l2) = countRunning l1 + countRunning l2 := by
  induction l1 with
  | nil => simp [countRunning]
  | cons t rest ih => simp [countRunning, ih]; omega

lemma countRunning_all_waiting (ts : List ScanPhase)
    (h : ∀ t ∈ ts, t = ScanPhase.waiting) : countRunning ts = 0 := by
  induction ts with
  | nil => rfl
  | cons t rest ih =>
      rw [countRunning, if_neg, ih (fun t' ht' => h t' (List.mem_cons_of_mem t ht'))]
      rw [h t (List.mem_cons_self t rest)]
      decide

/-! ## The sliding window search -/

lemma slideMatch_some_prefix (localLower suffix : List String) (i : Nat)
    (h : slideMatch localLower suffix = some i) : suffix <+: localLower.drop i := by
  induction localLower generalizing i with
  | nil =>
      rw [slideMatch] at h
      by_cases hs : suffix = ([] : List String)
      · rw [if_pos hs] at h
        rcases Option.some.injEq .. ▸ h with rfl
        simp [hs]
      · rw [if_neg hs] at h
        cases h
  | cons x rest ih =>
      rw [slideMatch] at h
      by_cases hp : suffix.isPrefixOf (x :: rest) = true
      · rw [if_pos hp] at h
        rcases Option.some.injEq .. ▸ h with rfl
        simpa using List.isPrefixOf_iff_prefix.mp hp
      · rw [if_neg hp] at h
        rcases Option.map_eq_some'.mp h with ⟨j, hj, rfl⟩
        simpa using ih j hj

lemma slideMatch_isSome_of_prefix (localLower suffix : List String) (i : Nat)
    (h : suffix <+: localLower.drop i) : (slideMatch localLower suffix).isSome = true := by
  induction localLower generalizing i with
  | nil =>
      have hs : suffix = [] := by
        rcases h with ⟨t, ht⟩
        rw [List.drop_nil] at ht
        exact (List.append_eq_nil.mp ht).1
      rw [slideMatch, if_pos hs]
      rfl
  | cons x rest ih =>
      rw [slideMatch]
      by_cases hp : suffix.isPrefixOf (x :: rest) = true
      · rw [if_pos hp]; rfl
      · rw [if_neg hp]
        rcases i with _ | i
        · exact absurd (List.isPrefixOf_iff_prefix.mpr (by simpa using h)) hp
        · rw [Option.isSome_map']
          exact ih i (by simpa using h)

lemma slideMatch_prefix_zero (localLower suffix : List String)
    (h : suffix <+: localLower) : slideMatch localLower suffix = some 0 := by
  cases localLower with
  | nil =>
      have hs : suffix = [] := by
        rcases h with ⟨t, ht⟩
        exact (List.append_eq_nil.mp ht).1
      rw [slideMatch, if_pos hs]
  | cons x rest =>
      rw [slideMatch, if_pos (List.isPrefixOf_iff_prefix.mpr h)]

lemma isSome_exists_slideMatch (localLower suffix : List String)
    (h : (slideMatch localLower suffix).isSome = true) :
    ∃ i, slideMatch localLower suffix = some i := by
  rcases hm : slideMatch localLower suffix with _ | i
  · rw [hm] at h; cases h
  · exact ⟨i, rfl⟩

/-! ## Best suffix length -/

lemma bestKAux_zero (localLower rootLower : List String) :
    bestKAux localLower rootLower 0 = 0 := rfl

lemma bestKAux_succ (localLower rootLower : List String) (k : Nat) :
    bestKAux localLower rootLower (k + 1) =
      if (slideMatch localLower (suffixAt rootLower (k + 1))).isSome then k + 1
      else bestKAux localLower rootLower k := rfl

lemma bestKAux_le (localLower rootLower : List String) : ∀ k, bestKAux localLower rootLower k ≤ k := by
  intro k
  induction k with
  | zero => exact le_refl _
  | succ k ih =>
      rw [bestKAux_succ]
      split
      · exact le_refl _
      · exact le_trans ih (Nat.le_succ k)

lemma bestKAux_isSome (localLower rootLower : List String) :
    ∀ k, 1 ≤ bestKAux localLower rootLower k →
      (slideMatch localLower (suffixAt rootLower (bestKAux localLower rootLower k))).isSome = true := by
  intro k
  induction k with
  | zero => intro h; cases h
  | succ k ih =>
      rw [bestKAux_succ]
      by_cases hs : (slideMatch localLower (suffixAt rootLower (k + 1))).isSome = true
      · rw [if_pos hs]
        intro _
        exact hs
      · rw [if_neg hs]
        intro h1
        exact ih h1

lemma bestKAux_ge (localLower rootLower : List String) :
    ∀ k k', 1 ≤ k' → k' ≤ k →
      (slideMatch localLower (suffixAt rootLower k')).isSome = true →
      k' ≤ bestKAux localLower rootLower k := by
  intro k
  induction k with
  | zero => intro k' h1 h2 _; omega
  | succ k ih =>
      intro k' h1 h2 h3
      rw [bestKAux_succ]
      by_cases hs : (slideMatch localLower (suffixAt rootLower (k + 1))).isSome = true
      · rw [if_pos hs]
        exact h2
      · rw [if_neg hs]
        rcases Nat.lt_or_ge k' (k + 1) with hlt | hge
        · exact ih k' h1 (by omega) h3
        · have hke : k' = k + 1 := by omega
          subst hke
          exact absurd h3 hs

lemma ownBestK_le (localLower rootLower : List String) :
    ownBestK localLower rootLower ≤ rootLower.length :=
  bestKAux_le localLower rootLower rootLower.length

lemma ownBestK_nil (localLower : List String) : ownBestK localLower [] = 0 := rfl

/-! ## The per-root loop -/

lemma kLoop_succ_eq (localParts localLower rootLower : List String) (root : PlexSection)
    (k : Nat) (b : BestMatch) :
    kLoop localParts localLower rootLower root (k + 1) b =
      match slideMatch localLower (rootLower.drop (rootLower.length - (k + 1))) with
      | some idx =>
          if k + 1 > b.k then
            { k := k + 1, children := localParts.drop (idx + (k + 1)), root := root }
          else if b.k = k + 1 then b
          else kLoop localParts localLower rootLower root k b
      | none =>
          if b.k = k + 1 then b
          else kLoop localParts localLower rootLower root k b := rfl

lemma kLoop_eq (localParts localLower rootLower : List String) (root : PlexSection) :
    ∀ k (b : BestMatch),
      kLoop localParts localLower rootLower root k b =
        if b.k < bestKAux localLower rootLower k then
          { k := bestKAux localLower rootLower k,
            children := localParts.drop
              (matchIdx localLower rootLower (bestKAux localLower rootLower k)
                + bestKAux localLower rootLower k),
            root := root }
        else b := by
  intro k
  induction k with
  | zero =>
      intro b
      rw [kLoop, bestKAux_zero, if_neg (by omega)]
  | succ k ih =>
      intro b
      rw [kLoop_succ_eq]
      rcases hm : slideMatch localLower (rootLower.drop (rootLower.length - (k + 1)))
        with _ | idx
      · -- no match at k + 1
        dsimp only
        have hiss : ¬ ((slideMatch localLower (suffixAt rootLower (k + 1))).isSome = true) := by
          rw [show suffixAt rootLower (k + 1)
            = rootLower.drop (rootLower.length - (k + 1)) from rfl, hm]
          simp
        have hbk : bestKAux localLower rootLower (k + 1) = bestKAux localLower rootLower k := by
          rw [bestKAux_succ, if_neg hiss]
        by_cases hbe : b.k = k + 1
        · rw [if_pos hbe, hbk]
          rw [if_neg (by have := bestKAux_le localLower rootLower k; omega)]
        · rw [if_neg hbe, ih, hbk]
      · -- match at k + 1
        have hiss : (slideMatch localLower (suffixAt rootLower (k + 1))).isSome = true := by
          rw [show suffixAt rootLower (k + 1)
            = rootLower.drop (rootLower.length - (k + 1)) from rfl, hm]
          rfl
        have hbk : bestKAux localLower rootLower (k + 1) = k + 1 := by
          rw [bestKAux_succ, if_pos hiss]
        have hidx : matchIdx localLower rootLower (k + 1) = idx := by
          rw [matchIdx, show suffixAt rootLower (k + 1)
            = rootLower.drop (rootLower.length - (k + 1)) from rfl, hm]
          rfl
        dsimp only
        by_cases hgt : k + 1 > b.k
        · rw [if_pos hgt, hbk, if_pos (by omega), hidx]
        · rw [if_neg hgt]
          by_cases hbe : b.k = k + 1
          · rw [if_pos hbe, hbk, if_neg (by omega)]
          · rw [if_neg hbe, ih, hbk,
              if_neg (by have := bestKAux_le localLower rootLower k; omega),
              if_neg (by omega)]

/-! ## The outer loop equals its declarative form -/

lemma rootsLoop_eq_bestSpec (localParts localLower : List String) :
    ∀ (roots : List PlexSection) (b : BestMatch),
      rootsLoop localParts localLower roots b = bestSpec localParts localLower roots b := by
  intro roots
  induction roots with
  | nil => intro b; rfl
  | cons r rest ih =>
      intro b
      rw [rootsLoop, bestSpec]
      simp only
      by_cases h1 : r.rootPath = ""
      · rw [if_pos h1, ih]
        have : ownBestK localLower (toLowerList (splitPathParts r.rootPath)) = 0 := by
          rw [h1]
          rfl
        rw [this, if_neg (by omega)]
      · rw [if_neg h1]
        by_cases h2 : splitPathParts r.rootPath = []
        · rw [if_pos h2, ih]
          have : ownBestK localLower (toLowerList (splitPathParts r.rootPath)) = 0 := by
            rw [h2]
            rfl
          rw [this, if_neg (by omega)]
        · rw [if_neg h2, ih, kLoop_eq]
          have hlen : (splitPathParts r.rootPath).length
              = (toLowerList (splitPathParts r.rootPath)).length := by
            rw [toLowerList, List.length_map]
          rw [hlen]
          rfl

/-! ## Decomposition of the fold -/

lemma bestSpec_append (localParts localLower : List String)
    (xs ys : List PlexSection) (b : BestMatch) :
    bestSpec localParts localLower (xs ++ ys) b
      = bestSpec localParts localLower ys (bestSpec localParts localLower xs b) := by
  induction xs generalizing b with
  | nil => rfl
  | cons r rest ih =>
      rw [List.cons_append, bestSpec, bestSpec]
      exact ih _

lemma bestSpec_noop (localParts localLower : List String) :
    ∀ (xs : List PlexSection) (b : BestMatch),
      (∀ a ∈ xs, ownBestK localLower (toLowerList (splitPathParts a.rootPath)) ≤ b.k) →
      bestSpec localParts localLower xs b = b := by
  intro xs
  induction xs with
  | nil => intro b _; rfl
  | cons r rest ih =>
      intro b h
      rw [bestSpec]
      rw [if_neg (by have := h r (List.mem_cons_self r rest); omega)]
      exact ih b (fun a ha => h a (List.mem_cons_of_mem r ha))

lemma bestSpec_k_lt (localParts localLower : List String) :
    ∀ (xs : List PlexSection) (b : BestMatch) (K : Nat), b.k < K →
      (∀ a ∈ xs, ownBestK localLower (toLowerList (splitPathParts a.rootPath)) < K) →
      (bestSpec localParts localLower xs b).k < K := by
  intro xs
  induction xs with
  | nil => intro b K hb _; exact hb
  | cons r rest ih =>
      intro b K hb h
      rw [bestSpec]
      split
      · exact ih _ K (h r (List.mem_cons_self r rest)) (fun a ha => h a (List.mem_cons_of_mem r ha))
      · exact ih b K hb (fun a ha => h a (List.mem_cons_of_mem r ha))

lemma bestSpec_cases (localParts localLower : List String) :
    ∀ (roots : List PlexSection) (b : BestMatch),
      (bestSpec localParts localLower roots b = b ∧
        ∀ a ∈ roots, ownBestK localLower (toLowerList (splitPathParts a.rootPath)) ≤ b.k) ∨
      (∃ l1 r l2, roots = l1 ++ r :: l2 ∧
        b.k < ownBestK localLower (toLowerList (splitPathParts r.rootPath)) ∧
        bestSpec localParts localLower roots b =
          { k := ownBestK localLower (toLowerList (splitPathParts r.rootPath)),
            children := ownChildren localParts localLower r, root := r } ∧
        (∀ a ∈ l1, ownBestK localLower (toLowerList (splitPathParts a.rootPath))
          < ownBestK localLower (toLowerList (splitPathParts r.rootPath))) ∧
        (∀ a ∈ l2, ownBestK localLower (toLowerList (splitPathParts a.rootPath))
          ≤ ownBestK localLower (toLowerList (splitPathParts r.rootPath)))) := by
  intro roots
  induction roots with
  | nil =>
      intro b
      left
      exact ⟨rfl, by intro a ha; cases ha⟩
  | cons r rest ih =>
      intro b
      rw [bestSpec]
      by_cases hstep : b.k < ownBestK localLower (toLowerList (splitPathParts r.rootPath))
      · rw [if_pos hstep]
        rcases ih { k := ownBestK localLower (toLowerList (splitPathParts r.rootPath)),
                    children := ownChildren localParts localLower r, root := r } with
          ⟨heq, hbound⟩ | ⟨l1, r', l2, hsplit, hlt, heq, hl1, hl2⟩
        · right
          refine ⟨[], r, rest, rfl, hstep, heq, ?_, ?_⟩
          · intro a ha; cases ha
          · intro a ha; exact hbound a ha
        · right
          have hlt2 : b.k < ownBestK localLower (toLowerList (splitPathParts r'.rootPath)) :=
            lt_trans hstep hlt
          refine ⟨r :: l1, r', l2, by rw [hsplit]; rfl, hlt2, heq, ?_, hl2⟩
          intro a ha
          rcases List.mem_cons.mp ha with rfl | ha
          · exact hlt
          · exact hl1 a ha
      · rw [if_neg hstep]
        rcases ih b with ⟨heq, hbound⟩ | ⟨l1, r', l2, hsplit, hlt, heq, hl1, hl2⟩
        · left
          refine ⟨heq, ?_⟩
          intro a ha
          rcases List.mem_cons.mp ha with rfl | ha
          · omega
          · exact hbound a ha
        · right
          refine ⟨r :: l1, r', l2, by rw [hsplit]; rfl, hlt, heq, ?_, hl2⟩
          intro a ha
          rcases List.mem_cons.mp ha with rfl | ha
          · omega
          · exact hl1 a ha

lemma bestSpec_first_max (localParts localLower : List String)
    (l1 : List PlexSection) (r : PlexSection) (l2 : List PlexSection) (b : BestMatch)
    (h1 : ∀ a ∈ l1, ownBestK localLower (toLowerList (splitPathParts a.rootPath))
      < ownBestK localLower (toLowerList (splitPathParts r.rootPath)))
    (hb : b.k < ownBestK localLower (toLowerList (splitPathParts r.rootPath)))
    (h2 : ∀ a ∈ l2, ownBestK localLower (toLowerList (splitPathParts a.rootPath))
      ≤ ownBestK localLower (toLowerList (splitPathParts r.rootPath))) :
    bestSpec localParts localLower (l1 ++ r :: l2) b =
      { k := ownBestK localLower (toLowerList (splitPathParts r.rootPath)),
        children := ownChildren localParts localLower r, root := r } := by
  rw [bestSpec_append]
  have hk : (bestSpec localParts localLower l1 b).k
      < ownBestK localLower (toLowerList (splitPathParts r.rootPath)) :=
    bestSpec_k_lt localParts localLower l1 b _ hb h1
  rw [bestSpec]
  rw [if_pos hk]
  exact bestSpec_noop localParts localLower l2 _ (by intro a ha; exact h2 a ha)

/-- Unfolding of `mapToPlexPath` through the declarative fold. -/
lemma mapToPlexPath_eq (localPath : String) (roots : List PlexSection) :
    mapToPlexPath localPath roots =
      if splitPathParts localPath = [] then ("", none)
      else
        let best := bestSpec (splitPathParts localPath)
          (toLowerList (splitPathParts localPath)) roots
          { k := 0, children := [], root := zeroSection }
        if best.root.rootPath = "" then ("", none)
        else (goToSlash (goJoin (goClean best.root.rootPath :: best.children)), some best.root) := by
  rw [mapToPlexPath]
  simp only
  rw [rootsLoop_eq_bestSpec]

/-! ## Characterisation of `mapToPlexPath` results -/

lemma toLowerList_length (xs : List String) : (toLowerList xs).length = xs.length := by
  rw [toLowerList, List.length_map]

lemma ownK_eq_zero_of_parts_nil (localPath : String) (a : PlexSection)
    (h : splitPathParts a.rootPath = []) : ownK localPath a = 0 := by
  rw [ownK, h]
  rfl

lemma splitPathParts_empty_str : splitPathParts "" = [] := rfl

lemma sharesSuffixWindow_iff (localPath : String) (a : PlexSection) :
    sharesSuffixWindow localPath a ↔ 1 ≤ ownK localPath a := by
  constructor
  · rintro ⟨k, h1, h2, h3⟩
    refine le_trans h1 (bestKAux_ge _ _ _ k h1 ?_ h3)
    rw [toLowerList_length]
    exact h2
  · intro h
    refine ⟨ownK localPath a, h, ?_, ?_⟩
    · have := ownBestK_le (toLowerList (splitPathParts localPath))
        (toLowerList (splitPathParts a.rootPath))
      rw [toLowerList_length] at this
      exact this
    · exact bestKAux_isSome _ _ _ h

lemma mapToPlexPath_none_iff (localPath : String) (roots : List PlexSection) :
    (mapToPlexPath localPath roots).2 = none ↔
      (splitPathParts localPath = [] ∨ ∀ a ∈ roots, ownK localPath a = 0) := by
  rw [mapToPlexPath_eq]
  by_cases hL : splitPathParts localPath = []
  · rw [if_pos hL]
    simp [hL]
  · rw [if_neg hL]
    rcases bestSpec_cases (splitPathParts localPath) (toLowerList (splitPathParts localPath))
        roots { k := 0, children := [], root := zeroSection } with
      ⟨heq, hbound⟩ | ⟨l1, rmax, l2, hsplit, hlt, heq, hl1, hl2⟩
    · rw [heq]
      have hz : zeroSection.rootPath = "" := rfl
      rw [if_pos hz]
      constructor
      · intro _
        right
        intro a ha
        have h0 : ownBestK (toLowerList (splitPathParts localPath))
            (toLowerList (splitPathParts a.rootPath)) ≤ 0 := hbound a ha
        show ownK localPath a = 0
        rw [ownK]
        omega
      · intro _
        rfl
    · rw [heq]
      have hpos : 0 < ownK localPath rmax := hlt
      have hroot : ¬ (rmax.rootPath = "") := by
        intro hc
        have : ownK localPath rmax = 0 :=
          ownK_eq_zero_of_parts_nil localPath rmax (by rw [hc]; rfl)
        omega
      rw [if_neg hroot]
      constructor
      · intro hcontra
        cases hcontra
      · rintro (hcontra | hall)
        · exact absurd hcontra hL
        · have := hall rmax (by rw [hsplit]; exact List.mem_append_right l1 (List.mem_cons_self rmax l2))
          omega

lemma mapToPlexPath_some_spec (localPath : String) (roots : List PlexSection) (r : PlexSection)
    (h : (mapToPlexPath localPath roots).2 = some r) :
    r ∈ roots ∧ 1 ≤ ownK localPath r ∧ r.rootPath ≠ "" ∧
    splitPathParts localPath ≠ [] ∧
    (mapToPlexPath localPath roots).1
      = goJoin (goClean r.rootPath :: ownChildren (splitPathParts localPath)
          (toLowerList (splitPathParts localPath)) r) ∧
    ∃ l1 l2, roots = l1 ++ r :: l2 ∧
      (∀ a ∈ l1, ownK localPath a < ownK localPath r) ∧
      (∀ a ∈ roots, ownK localPath a ≤ ownK localPath r) := by
  rw [mapToPlexPath_eq] at h ⊢
  by_cases hL : splitPathParts localPath = []
  · rw [if_pos hL] at h
    cases h
  · rw [if_neg hL] at h ⊢
    rcases bestSpec_cases (splitPathParts localPath) (toLowerList (splitPathParts localPath))
        roots { k := 0, children := [], root := zeroSection } with
      ⟨heq, hbound⟩ | ⟨l1, rmax, l2, hsplit, hlt, heq, hl1, hl2⟩
    · rw [heq] at h
      have hz : zeroSection.rootPath = "" := rfl
      rw [if_pos hz] at h
      cases h
    · rw [heq] at h ⊢
      have hpos : 0 < ownK localPath rmax := hlt
      have hroot : ¬ (rmax.rootPath = "") := by
        intro hc
        have : ownK localPath rmax = 0 :=
          ownK_eq_zero_of_parts_nil localPath rmax (by rw [hc]; rfl)
        omega
      rw [if_neg hroot] at h ⊢
      have hr : rmax = r := by
        have := congrArg (fun o => o.getD zeroSection) h
        simpa using this
      subst hr
      have hmem : rmax ∈ roots := by
        rw [hsplit]
        exact List.mem_append_right l1 (List.mem_cons_self rmax l2)
      refine ⟨hmem, hpos, hroot, hL, rfl, l1, l2, hsplit, hl1, ?_⟩
      intro a ha
      rw [hsplit] at ha
      rcases List.mem_append.mp ha with ha | ha
      · exact le_of_lt (hl1 a ha)
      · rcases List.mem_cons.mp ha with rfl | ha
        · exact le_refl _
        · exact hl2 a ha

/-! ## Splitting lemmas -/

lemma string_mk_toList (s : String) : String.mk s.toList = s := by
  cases s
  rfl

lemma string_toList_append (a b : String) : (a ++ b).toList = a.toList ++ b.toList :=
  String.data_append a b

lemma splitChars_nil (d : Char → Bool) (cur : List Char) :
    splitChars d [] cur = [String.mk cur.reverse] := rfl

lemma splitChars_cons (d : Char → Bool) (c : Char) (cs cur : List Char) :
    splitChars d (c :: cs) cur =
      if d c then String.mk cur.reverse :: splitChars d cs []
      else splitChars d cs (c :: cur) := rfl

lemma splitChars_append_delim (d : Char → Bool) (c : Char) (hd : d c = true)
    (ys : List Char) :
    ∀ (xs cur : List Char),
      splitChars d (xs ++ c :: ys) cur = splitChars d xs cur ++ splitChars d ys [] := by
  intro xs
  induction xs with
  | nil =>
      intro cur
      rw [List.nil_append, splitChars_cons, if_pos hd, splitChars_nil]
      rfl
  | cons x xs ih =>
      intro cur
      rw [List.cons_append, splitChars_cons, splitChars_cons]
      by_cases hx : d x = true
      · rw [if_pos hx, if_pos hx, ih, List.cons_append]
      · rw [if_neg hx, if_neg hx, ih]

lemma splitChars_no_delim (d : Char → Bool) :
    ∀ (cs cur : List Char), (∀ x ∈ cs, d x = false) →
      splitChars d cs cur = [String.mk (cur.reverse ++ cs)] := by
  intro cs
  induction cs with
  | nil =>
      intro cur _
      rw [splitChars_nil, List.append_nil]
  | cons c cs ih =>
      intro cur h
      rw [splitChars_cons, if_neg (by rw [h c (List.mem_cons_self c cs)]; simp), ih _
        (fun x hx => h x (List.mem_cons_of_mem c hx))]
      simp

lemma mem_splitChars_free (d : Char → Bool) :
    ∀ (cs cur : List Char), (∀ x ∈ cur, d x = false) →
      ∀ f ∈ splitChars d cs cur, ∀ x ∈ f.toList, d x = false := by
  intro cs
  induction cs with
  | nil =>
      intro cur hcur f hf x hx
      rw [splitChars_nil] at hf
      rcases List.mem_singleton.mp hf with rfl
      exact hcur x (by simpa using hx)
  | cons c cs ih =>
      intro cur hcur f hf x hx
      rw [splitChars_cons] at hf
      by_cases hc : d c = true
      · rw [if_pos hc] at hf
        rcases List.mem_cons.mp hf with rfl | hf
        · exact hcur x (by simpa using hx)
        · exact ih [] (by intro y hy; cases hy) f hf x hx
      · rw [if_neg hc] at hf
        refine ih (c :: cur) ?_ f hf x hx
        intro y hy
        rcases List.mem_cons.mp hy with rfl | hy
        · exact Bool.not_eq_true _ ▸ hc
        · exact hcur y hy

lemma joinSlash_cons₂ (e : String) (f : String) (rest : List String) :
    joinSlash (e :: f :: rest) = e ++ "/" ++ joinSlash (f :: rest) := rfl

lemma splitChars_joinSlash (d : Char → Bool) (hd : d '/' = true) :
    ∀ (els : List String), els ≠ [] →
      (∀ e ∈ els, ∀ x ∈ e.toList, d x = false) →
      splitChars d (joinSlash els).toList [] = els := by
  intro els
  induction els with
  | nil => intro h; exact absurd rfl h
  | cons e rest ih =>
      intro _ hfree
      cases rest with
      | nil =>
          rw [show joinSlash [e] = e from rfl,
            splitChars_no_delim d e.toList []
              (fun x hx => hfree e (List.mem_singleton.mpr rfl) x hx)]
          show [String.mk e.toList] = [e]
          rw [string_mk_toList]
      | cons f rest2 =>
          rw [joinSlash_cons₂, string_toList_append, string_toList_append,
            show ("/" : String).toList = ['/'] from rfl, List.append_assoc,
            List.singleton_append,
            splitChars_append_delim d '/' hd _ e.toList [],
            splitChars_no_delim d e.toList [] (fun x hx => hfree e (List.mem_cons_self e _) x hx),
            ih (by intro hc; cases hc) (fun g hg x hx => hfree g (List.mem_cons_of_mem e hg) x hx)]
          show [String.mk e.toList] ++ (f :: rest2) = e :: f :: rest2
          rw [string_mk_toList]
          rfl

lemma mem_goFieldsFunc (d : Char → Bool) (s : String) :
    ∀ f ∈ goFieldsFunc d s, f ≠ "" ∧ ∀ x ∈ f.toList, d x = false := by
  intro f hf
  rw [goFieldsFunc] at hf
  rcases List.mem_filter.mp hf with ⟨hf1, hf2⟩
  refine ⟨by simpa using hf2, ?_⟩
  exact mem_splitChars_free d s.toList [] (by intro y hy; cases hy) f hf1

lemma goFieldsFunc_append_slash (d : Char → Bool) (hd : d '/' = true) (s1 s2 : String) :
    goFieldsFunc d (s1 ++ "/" ++ s2) = goFieldsFunc d s1 ++ goFieldsFunc d s2 := by
  rw [goFieldsFunc, goFieldsFunc, goFieldsFunc, string_toList_append, string_toList_append,
    show ("/" : String).toList = ['/'] from rfl, List.append_assoc, List.singleton_append,
    splitChars_append_delim d '/' hd _ s1.toList [], List.filter_append]

lemma goFieldsFunc_joinSlash (d : Char → Bool) (hd : d '/' = true) (els : List String)
    (hne : ∀ e ∈ els, e ≠ "")
    (hfree : ∀ e ∈ els, ∀ x ∈ e.toList, d x = false) :
    goFieldsFunc d (joinSlash els) = els := by
  cases els with
  | nil => rfl
  | cons e rest =>
      rw [goFieldsFunc, splitChars_joinSlash d hd (e :: rest) (by intro hc; cases hc) hfree]
      exact List.filter_eq_self.mpr (by intro a ha; simpa using hne a ha)

/-! ## Normal form of `filepath.Clean` -/

lemma cleanElems_skip (rooted : Bool) (e : String) (rest acc : List String)
    (h : (e = "" || e = ".") = true) :
    cleanElems rooted (e :: rest) acc = cleanElems rooted rest acc := by
  rw [cleanElems_cons, if_pos h]

lemma cleanElems_push (rooted : Bool) (e : String) (rest acc : List String)
    (h1 : ¬((e = "" || e = ".") = true)) (h2 : ¬(e = "..")) :
    cleanElems rooted (e :: rest) acc = cleanElems rooted rest (e :: acc) := by
  rw [cleanElems_cons, if_neg h1, if_neg h2]

lemma cleanElems_dotdot_nil (rooted : Bool) (rest : List String) :
    cleanElems rooted (".." :: rest) [] =
      if rooted then cleanElems rooted rest [] else cleanElems rooted rest [".."] := rfl

lemma cleanElems_dotdot_cons (rooted : Bool) (rest : List String) (a : String)
    (acc' : List String) :
    cleanElems rooted (".." :: rest) (a :: acc') =
      if a = ".." then cleanElems rooted rest (".." :: a :: acc')
      else cleanElems rooted rest acc' := rfl

lemma cleanElems_pushes (rooted : Bool) :
    ∀ (els acc : List String),
      (∀ e ∈ els, e ≠ "" ∧ e ≠ "." ∧ e ≠ "..") →
      cleanElems rooted els acc = acc.reverse ++ els := by
  intro els
  induction els with
  | nil =>
      intro acc _
      rw [cleanElems, List.append_nil]
  | cons e rest ih =>
      intro acc h
      rcases h e (List.mem_cons_self e rest) with ⟨h1, h2, h3⟩
      rw [cleanElems_push rooted e rest acc (by simp [h1, h2]) h3,
        ih (e :: acc) (fun x hx => h x (List.mem_cons_of_mem e hx))]
      simp

lemma cleanElems_dots :
    ∀ (n : Nat) (rest : List String) (m : Nat),
      (∀ e ∈ rest, e ≠ "" ∧ e ≠ "." ∧ e ≠ "..") →
      cleanElems false (List.replicate n ".." ++ rest) (List.replicate m "..")
        = List.replicate (m + n) ".." ++ rest := by
  intro n
  induction n with
  | zero =>
      intro rest m h
      rw [List.replicate_zero, List.nil_append,
        cleanElems_pushes false rest (List.replicate m "..") h,
        List.reverse_replicate, Nat.add_zero]
  | succ n ih =>
      intro rest m h
      rw [List.replicate_succ, List.cons_append]
      cases m with
      | zero =>
          rw [List.replicate_zero, cleanElems_dotdot_nil, if_neg (by decide)]
          have h1 := ih rest 1 h
          rw [show (List.replicate 1 ".." : List String) = [".."] from rfl] at h1
          rw [h1]
          have harith : (1 : Nat) + n = 0 + (n + 1) := by omega
          rw [harith]
      | succ m =>
          rw [List.replicate_succ, cleanElems_dotdot_cons, if_pos rfl]
          have h1 := ih rest (m + 2) h
          rw [show (List.replicate (m + 2) ".." : List String)
            = ".." :: ".." :: List.replicate m ".." from by
              rw [List.replicate_succ, List.replicate_succ]] at h1
          rw [h1]
          have harith : m + 2 + n = m + 1 + (n + 1) := by omega
          rw [harith]

lemma cleanElems_shape (rooted : Bool) :
    ∀ (els acc : List String) (d0 : Nat) (nd0 : List String),
      acc = nd0 ++ List.replicate d0 ".." → ".." ∉ nd0 → (rooted = true → d0 = 0) →
      ∃ d nd, cleanElems rooted els acc = List.replicate d ".." ++ nd ∧ ".." ∉ nd ∧
        (rooted = true → d = 0) := by
  intro els
  induction els with
  | nil =>
      intro acc d0 nd0 hacc hnd hr
      refine ⟨d0, nd0.reverse, ?_, by simpa using hnd, hr⟩
      rw [cleanElems, hacc, List.reverse_append, List.reverse_replicate]
  | cons e rest ih =>
      intro acc d0 nd0 hacc hnd hr
      by_cases h1 : (e = "" || e = ".") = true
      · rw [cleanElems_skip rooted e rest acc h1]
        exact ih acc d0 nd0 hacc hnd hr
      · by_cases h2 : e = ".."
        · subst h2
          rcases hacc' : acc with _ | ⟨a, acc'⟩
          · rw [cleanElems_dotdot_nil]
            have hd0 : d0 = 0 := by
              rcases List.append_eq_nil.mp (hacc' ▸ hacc).symm with ⟨_, h4⟩
              simpa using congrArg List.length h4
            by_cases hroot : rooted = true
            · rw [if_pos hroot]
              exact ih [] 0 [] rfl (by simp) (fun _ => rfl)
            · rw [if_neg hroot]
              exact ih [".."] 1 []
                (by rw [show (List.replicate 1 ".." : List String) = [".."] from rfl]; rfl)
                (by simp) (fun hc => absurd hc hroot)
          · rw [cleanElems_dotdot_cons]
            have hacc2 : a :: acc' = nd0 ++ List.replicate d0 ".." := hacc' ▸ hacc
            by_cases ha : a = ".."
            · rw [if_pos ha]
              have hnd0nil : nd0 = [] := by
                rcases hx : nd0 with _ | ⟨b, nd0'⟩
                · rfl
                · exfalso
                  rw [hx, List.cons_append] at hacc2
                  have hab : a = b := ((List.cons.injEq _ _ _ _).mp hacc2).1
                  apply hnd
                  rw [hx, ← hab, ha]
                  exact List.mem_cons_self _ _
              refine ih (".." :: a :: acc') (d0 + 1) [] ?_ (by simp) ?_
              · rw [hnd0nil, List.nil_append] at hacc2
                rw [List.nil_append, List.replicate_succ, ← hacc2]
              · intro hroot
                exfalso
                have hd0 : d0 = 0 := hr hroot
                rw [hnd0nil, hd0, List.nil_append, List.replicate_zero] at hacc2
                exact List.cons_ne_nil a acc' hacc2
            · rw [if_neg ha]
              rcases hx : nd0 with _ | ⟨b, nd0'⟩
              · exfalso
                rw [hx, List.nil_append] at hacc2
                rcases d0 with _ | d0'
                · rw [List.replicate_zero] at hacc2
                  exact List.cons_ne_nil a acc' hacc2
                · rw [List.replicate_succ] at hacc2
                  exact ha ((List.cons.injEq _ _ _ _).mp hacc2).1
              · rw [hx, List.cons_append] at hacc2
                refine ih acc' d0 nd0' ((List.cons.injEq _ _ _ _).mp hacc2).2 ?_ hr
                intro hc
                exact hnd (by rw [hx]; exact List.mem_cons_of_mem b hc)
        · rw [cleanElems_push rooted e rest acc h1 h2]
          refine ih (e :: acc) d0 (e :: nd0) ?_ ?_ hr
          · rw [hacc, List.cons_append]
          · intro hc
            rcases List.mem_cons.mp hc with rfl | hc
            · exact h2 rfl
            · exact hnd hc

lemma mem_cleanElems_src (rooted : Bool) :
    ∀ (els acc : List String), ∀ e ∈ cleanElems rooted els acc,
      e ∈ els ∨ e ∈ acc ∨ e = ".." := by
  intro els
  induction els with
  | nil =>
      intro acc e he
      rw [cleanElems] at he
      exact Or.inr (Or.inl (List.mem_reverse.mp he))
  | cons el rest ih =>
      intro acc e he
      by_cases h1 : (el = "" || el = ".") = true
      · rw [cleanElems_skip rooted el rest acc h1] at he
        rcases ih acc e he with h | h | h
        · exact Or.inl (List.mem_cons_of_mem el h)
        · exact Or.inr (Or.inl h)
        · exact Or.inr (Or.inr h)
      · by_cases h2 : el = ".."
        · subst h2
          rcases acc with _ | ⟨a, acc'⟩
          · rw [cleanElems_dotdot_nil] at he
            by_cases hroot : rooted = true
            · rw [if_pos hroot] at he
              rcases ih [] e he with h | h | h
              · exact Or.inl (List.mem_cons_of_mem _ h)
              · cases h
              · exact Or.inr (Or.inr h)
            · rw [if_neg hroot] at he
              rcases ih [".."] e he with h | h | h
              · exact Or.inl (List.mem_cons_of_mem _ h)
              · exact Or.inr (Or.inr (List.mem_singleton.mp h))
              · exact Or.inr (Or.inr h)
          · rw [cleanElems_dotdot_cons] at he
            by_cases ha : a = ".."
            · rw [if_pos ha] at he
              rcases ih (".." :: a :: acc') e he with h | h | h
              · exact Or.inl (List.mem_cons_of_mem _ h)
              · rcases List.mem_cons.mp h with rfl | h
                · exact Or.inr (Or.inr rfl)
                · exact Or.inr (Or.inl h)
              · exact Or.inr (Or.inr h)
            · rw [if_neg ha] at he
              rcases ih acc' e he with h | h | h
              · exact Or.inl (List.mem_cons_of_mem _ h)
              · exact Or.inr (Or.inl (List.mem_cons_of_mem a h))
              · exact Or.inr (Or.inr h)
        · rw [cleanElems_push rooted el rest acc h1 h2] at he
          rcases ih (el :: acc) e he with h | h | h
          · exact Or.inl (List.mem_cons_of_mem el h)
          · rcases List.mem_cons.mp h with rfl | h
            · exact Or.inl (List.mem_cons_self _ _)
            · exact Or.inr (Or.inl h)
          · exact Or.inr (Or.inr h)

/-! ## Rendering and re-parsing cleaned paths -/

lemma strRooted_def (s : String) :
    strRooted s = match s.toList with
      | '/' :: _ => true
      | _ => false := rfl

lemma strRooted_of_head_slash (s : String) (cs : List Char)
    (h : s.toList = '/' :: cs) : strRooted s = true := by
  rw [strRooted_def, h]
  rfl

lemma strRooted_of_head_ne (s : String) (c : Char) (cs : List Char)
    (h : s.toList = c :: cs) (hc : c ≠ '/') : strRooted s = false := by
  rw [strRooted_def, h]
  split
  · next heq => exact absurd ((List.cons.injEq _ _ _ _).mp heq).1 hc
  · rfl

lemma joinSlash_append (a b : List String) (ha : a ≠ []) (hb : b ≠ []) :
    joinSlash (a ++ b) = joinSlash a ++ "/" ++ joinSlash b := by
  induction a with
  | nil => exact absurd rfl ha
  | cons e rest ih =>
      cases rest with
      | nil =>
          cases b with
          | nil => exact absurd rfl hb
          | cons f rest2 => rfl
      | cons f rest2 =>
          have ih2 := ih (by intro hc; cases hc)
          calc joinSlash (e :: f :: rest2 ++ b)
              = e ++ "/" ++ joinSlash ((f :: rest2) ++ b) := rfl
            _ = e ++ "/" ++ (joinSlash (f :: rest2) ++ "/" ++ joinSlash b) := by
                rw [ih2]
            _ = joinSlash (e :: f :: rest2) ++ "/" ++ joinSlash b := by
                rw [joinSlash_cons₂]
                simp [String.append_assoc]

lemma renderClean_append (rooted : Bool) (els ch : List String)
    (hne : els ≠ []) (hch : ch ≠ []) :
    renderClean rooted (els ++ ch) = renderClean rooted els ++ "/" ++ joinSlash ch := by
  rw [renderClean, renderClean]
  by_cases hr : rooted = true
  · rw [if_pos hr, if_pos hr, joinSlash_append els ch hne hch]
    simp [String.append_assoc]
  · rw [if_neg hr, if_neg hr, if_neg hne, if_neg (by
      intro hc
      exact hne (List.append_eq_nil.mp hc).1)]
    exact joinSlash_append els ch hne hch

lemma string_ne_of_data_ne (s t : String) (h : s.data ≠ t.data) : s ≠ t := by
  intro hc
  exact h (congrArg String.data hc)

lemma joinSlash_toList_head (e : String) (rest : List String) (c : Char) (tail : List Char)
    (he : e.toList = c :: tail) :
    ∃ tl, (joinSlash (e :: rest)).toList = c :: tl := by
  cases rest with
  | nil => exact ⟨tail, he⟩
  | cons f rest2 =>
      rw [joinSlash_cons₂, string_toList_append, string_toList_append, he]
      exact ⟨tail ++ ("/" : String).toList ++ (joinSlash (f :: rest2)).toList, by simp⟩

lemma renderClean_not_dot_slash (rooted : Bool) (els : List String)
    (hmem : ∀ e ∈ els, e ≠ "" ∧ e ≠ "." ∧ '/' ∉ e.toList) (hne : els ≠ []) :
    renderClean rooted els ≠ "." ∧ renderClean rooted els ≠ "/" := by
  rcases els with _ | ⟨e, rest⟩
  · exact absurd rfl hne
  · rcases hmem e (List.mem_cons_self e rest) with ⟨he1, he2, he3⟩
    have hetl : ∃ c tail, e.toList = c :: tail := by
      rcases hx : e.toList with _ | ⟨c, tail⟩
      · exact absurd (string_eq_of_data e "" (by simpa using hx)) he1
      · exact ⟨c, tail, rfl⟩
    rcases hetl with ⟨c, tail, hehead⟩
    have hcslash : c ≠ '/' := by
      intro hc
      exact he3 (by rw [hehead, hc]; exact List.mem_cons_self _ _)
    have hepos : 0 < e.toList.length := by
      rw [hehead]
      simp
    have hjne : joinSlash (e :: rest) ≠ "" :=
      joinSlash_ne_empty (e :: rest) (by intro hc3; cases hc3)
        (fun x hx => (hmem x hx).1)
    rw [renderClean]
    by_cases hr : rooted = true
    · rw [if_pos hr]
      constructor
      · refine string_ne_of_data_ne _ _ ?_
        rw [String.data_append]
        intro hc
        have hh := congrArg (fun l => l.headI) hc
        simp [show ("/" : String).data = ['/'] from rfl,
          show ("." : String).data = ['.'] from rfl] at hh
      · refine string_ne_of_data_ne _ _ ?_
        rw [String.data_append]
        intro hc
        rw [show ("/" : String).data = ['/'] from rfl] at hc
        have hc2 : (joinSlash (e :: rest)).data = [] := by
          have := hc
          rw [show (['/'] : List Char) ++ (joinSlash (e :: rest)).data =
              '/' :: (joinSlash (e :: rest)).data from rfl] at this
          exact ((List.cons.injEq _ _ _ _).mp this).2
        exact hjne (string_eq_of_data _ "" (by simpa using hc2))
    · rw [if_neg hr, if_neg (by intro hc; cases hc)]
      constructor
      · refine string_ne_of_data_ne _ _ ?_
        show (joinSlash (e :: rest)).toList ≠ ("." : String).toList
        cases rest with
        | nil =>
            intro hc
            exact he2 (string_eq_of_data e "." hc)
        | cons f rest2 =>
            rw [joinSlash_cons₂, string_toList_append, string_toList_append]
            intro hc
            have hlen := congrArg List.length hc
            rw [List.length_append, List.length_append,
              show (("/" : String).toList).length = 1 from rfl,
              show (("." : String).toList).length = 1 from rfl] at hlen
            omega
      · refine string_ne_of_data_ne _ _ ?_
        show (joinSlash (e :: rest)).toList ≠ ("/" : String).toList
        rcases joinSlash_toList_head e rest c tail hehead with ⟨tl, hjtl⟩
        rw [hjtl, show ("/" : String).toList = ['/'] from rfl]
        intro hc
        exact hcslash ((List.cons.injEq _ _ _ _).mp hc).1

lemma goSplitOn_renderClean (rooted : Bool) (els : List String)
    (hne : els ≠ []) (hfree : ∀ e ∈ els, '/' ∉ e.toList) :
    goSplitOn (renderClean rooted els) '/' = if rooted = true then "" :: els else els := by
  have hfree2 : ∀ e ∈ els, ∀ x ∈ e.toList, (x = '/' : Bool) = false := by
    intro e he x hx
    by_cases hxc : x = '/'
    · exact absurd (hxc ▸ hx) (hfree e he)
    · simpa using hxc
  rw [renderClean]
  by_cases hr : rooted = true
  · rw [if_pos hr, if_pos hr, goSplitOn, string_toList_append,
      show ("/" : String).toList = ['/'] from rfl, List.singleton_append,
      splitChars_cons, if_pos (by simp)]
    rw [splitChars_joinSlash _ (by simp) els hne hfree2]
    rfl
  · rw [if_neg hr, if_neg hr, if_neg hne, goSplitOn,
      splitChars_joinSlash _ (by simp) els hne hfree2]

lemma strRooted_renderClean (rooted : Bool) (els : List String)
    (hne : els ≠ []) (hmem : ∀ e ∈ els, e ≠ "" ∧ '/' ∉ e.toList) :
    strRooted (renderClean rooted els) = rooted := by
  rw [renderClean]
  by_cases hr : rooted = true
  · rw [if_pos hr, hr]
    exact strRooted_of_head_slash _ ((joinSlash els).toList) (by
      rw [string_toList_append]
      rfl)
  · rw [if_neg hr, if_neg hne]
    rcases els with _ | ⟨e, rest⟩
    · exact absurd rfl hne
    · rcases hmem e (List.mem_cons_self e rest) with ⟨he1, he3⟩
      have hetl : ∃ c tail, e.toList = c :: tail := by
        rcases hx : e.toList with _ | ⟨c, tail⟩
        · exact absurd (string_eq_of_data e "" (by simpa using hx)) he1
        · exact ⟨c, tail, rfl⟩
      rcases hetl with ⟨c, tail, hehead⟩
      have hcslash : c ≠ '/' := by
        intro hc
        exact he3 (by rw [hehead, hc]; exact List.mem_cons_self _ _)
      rcases joinSlash_toList_head e rest c tail hehead with ⟨tl, hjtl⟩
      rw [strRooted_of_head_ne _ c tl hjtl hcslash]
      exact ((Bool.not_eq_true rooted).mp hr).symm

lemma goClean_render_fixed (rooted : Bool) (els : List String)
    (hm : ∀ e ∈ els, e ≠ "" ∧ e ≠ ".")
    (hfree : ∀ e ∈ els, '/' ∉ e.toList)
    (hshape : ∃ d nd, els = List.replicate d ".." ++ nd ∧ ".." ∉ nd ∧ (rooted = true → d = 0))
    (hne : els ≠ []) :
    goClean (renderClean rooted els) = renderClean rooted els := by
  have hclean : cleanElems rooted els [] = els := by
    rcases hshape with ⟨d, nd, hels, hnddot, hrd⟩
    have hnd : ∀ e ∈ nd, e ≠ "" ∧ e ≠ "." ∧ e ≠ ".." := by
      intro e he
      rcases hm e (by rw [hels]; exact List.mem_append_right _ he) with ⟨h1, h2⟩
      exact ⟨h1, h2, fun hc => hnddot (hc ▸ he)⟩
    by_cases hr : rooted = true
    · rw [hels, hrd hr, List.replicate_zero, List.nil_append]
      rw [cleanElems_pushes rooted nd [] hnd]
      rfl
    · have hrf : rooted = false := (Bool.not_eq_true rooted).mp hr
      rw [hels, hrf]
      have hdots := cleanElems_dots d nd 0 hnd
      rw [List.replicate_zero] at hdots
      rw [Nat.zero_add] at hdots
      exact hdots
  rw [goClean, strRooted_renderClean rooted els hne
      (fun e he => ⟨(hm e he).1, hfree e he⟩),
    goSplitOn_renderClean rooted els hne hfree]
  by_cases hr : rooted = true
  · rw [if_pos hr, cleanElems_skip rooted "" els [] (by simp), hclean]
  · rw [if_neg hr, hclean]

/-! ## The bridge: parsing a mapped path recovers root components and children -/

lemma mem_cleanElems_not_dot (rooted : Bool) :
    ∀ (els acc : List String), (∀ a ∈ acc, a ≠ "" ∧ a ≠ ".") →
      ∀ e ∈ cleanElems rooted els acc, e ≠ "" ∧ e ≠ "." := by
  intro els
  induction els with
  | nil =>
      intro acc hacc e he
      rw [cleanElems] at he
      exact hacc e (List.mem_reverse.mp he)
  | cons el rest ih =>
      intro acc hacc e he
      by_cases h1 : (el = "" || el = ".") = true
      · rw [cleanElems_skip rooted el rest acc h1] at he
        exact ih acc hacc e he
      · by_cases h2 : el = ".."
        · subst h2
          rcases acc with _ | ⟨a, acc'⟩
          · rw [cleanElems_dotdot_nil] at he
            by_cases hroot : rooted = true
            · rw [if_pos hroot] at he
              exact ih [] (by intro a ha; cases ha) e he
            · rw [if_neg hroot] at he
              refine ih [".."] ?_ e he
              intro a ha
              rcases List.mem_singleton.mp ha with rfl
              exact ⟨by decide, by decide⟩
          · rw [cleanElems_dotdot_cons] at he
            by_cases ha : a = ".."
            · rw [if_pos ha] at he
              refine ih (".." :: a :: acc') ?_ e he
              intro b hb
              rcases List.mem_cons.mp hb with rfl | hb
              · exact ⟨by decide, by decide⟩
              · exact hacc b hb
            · rw [if_neg ha] at he
              exact ih acc' (fun b hb => hacc b (List.mem_cons_of_mem a hb)) e he
        · rw [cleanElems_push rooted el rest acc h1 h2] at he
          refine ih (el :: acc) ?_ e he
          intro b hb
          rcases List.mem_cons.mp hb with rfl | hb
          · constructor
            · intro hc
              exact h1 (by rw [hc]; rfl)
            · intro hc
              exact h1 (by rw [hc]; rfl)
          · exact hacc b hb

/-- Every `filepath.Clean` result is a rendered normal form: elements that
are neither empty nor `"."` nor `'/'`-bearing, with all `".."`s at the
front, and none at all in a rooted path. -/
lemma goClean_normal (p : String) :
    ∃ rooted els, goClean p = renderClean rooted els ∧
      (∀ e ∈ els, e ≠ "" ∧ e ≠ ".") ∧
      (∀ e ∈ els, '/' ∉ e.toList) ∧
      (∃ d nd, els = List.replicate d ".." ++ nd ∧ ".." ∉ nd ∧
        (rooted = true → d = 0)) := by
  refine ⟨strRooted p, cleanElems (strRooted p) (goSplitOn p '/') [], rfl, ?_, ?_, ?_⟩
  · exact mem_cleanElems_not_dot (strRooted p) (goSplitOn p '/') []
      (by intro a ha; cases ha)
  · intro e he
    rcases mem_cleanElems_src (strRooted p) (goSplitOn p '/') [] e he with h | h | h
    · intro hc
      have := mem_splitChars_free (fun c => (c = '/' : Bool)) p.toList []
        (by intro y hy; cases hy) e h '/' hc
      simp at this
    · cases h
    · rw [h]
      decide
  · exact cleanElems_shape (strRooted p) (goSplitOn p '/') [] 0 [] rfl
      (by intro hc; cases hc) (fun _ => rfl)

/-- If a path has components, the element list of its `Clean` normal form is
non-empty. -/
lemma els_ne_nil_of_splitPathParts (p : String) (rooted : Bool) (els : List String)
    (hclean : goClean p = renderClean rooted els)
    (hne : splitPathParts p ≠ []) : els ≠ [] ∧ goClean p ≠ "." ∧ goClean p ≠ "/" := by
  have hnds : goClean p ≠ "." ∧ goClean p ≠ "/" := by
    by_cases hd : goClean p = "." ∨ goClean p = "/"
    · exfalso
      apply hne
      show (if goClean p = "." || goClean p = "/" then [] else
        (goFieldsFunc isPathDelim (goClean p)).filter (fun s => s ≠ "" && s ≠ "/")) = []
      rcases hd with hd | hd <;> rw [if_pos (by rw [hd]; decide)]
    · exact ⟨fun hc => hd (Or.inl hc), fun hc => hd (Or.inr hc)⟩
  refine ⟨?_, hnds⟩
  intro hc
  rw [hc, renderClean] at hclean
  by_cases hr : rooted = true
  · rw [if_pos hr] at hclean
    exact hnds.2 (by rw [hclean]; exact string_eq_of_data _ _ (by
      rw [String.data_append]
      rfl))
  · rw [if_neg hr, if_pos rfl] at hclean
    exact hnds.1 hclean

lemma splitPathParts_not_dot_slash (p : String) (hne : splitPathParts p ≠ []) :
    splitPathParts p = (goFieldsFunc isPathDelim (goClean p)).filter
      (fun s => s ≠ "" && s ≠ "/") := by
  rcases goClean_normal p with ⟨rooted, els, hclean, hm, hfree, hshape⟩
  rcases els_ne_nil_of_splitPathParts p rooted els hclean hne with ⟨_, h1, h2⟩
  show (if goClean p = "." || goClean p = "/" then [] else
      (goFieldsFunc isPathDelim (goClean p)).filter (fun s => s ≠ "" && s ≠ "/"))
    = (goFieldsFunc isPathDelim (goClean p)).filter (fun s => s ≠ "" && s ≠ "/")
  rw [if_neg (by simp [h1, h2])]

/-- Members of `splitPathParts` are non-empty and free of both separators. -/
lemma mem_splitPathParts (p : String) :
    ∀ e ∈ splitPathParts p, e ≠ "" ∧ ∀ x ∈ e.toList, isPathDelim x = false := by
  intro e he
  have he2 : e ∈ (if goClean p = "." || goClean p = "/" then ([] : List String) else
      (goFieldsFunc isPathDelim (goClean p)).filter (fun s => s ≠ "" && s ≠ "/")) := he
  by_cases hd : (goClean p = "." || goClean p = "/") = true
  · rw [if_pos hd] at he2
    cases he2
  · rw [if_neg hd] at he2
    rcases List.mem_filter.mp he2 with ⟨hf, _⟩
    exact mem_goFieldsFunc isPathDelim (goClean p) e hf

lemma goFieldsFunc_slash_prepend (d : Char → Bool) (hd : d '/' = true) (s : String) :
    goFieldsFunc d ("/" ++ s) = goFieldsFunc d s := by
  rw [goFieldsFunc, goFieldsFunc, string_toList_append,
    show ("/" : String).toList = ['/'] from rfl, List.singleton_append,
    splitChars_cons, if_pos hd]
  rw [show String.mk ([] : List Char).reverse = "" from rfl, List.filter_cons]
  simp

/-- Parsing a rendered normal form with extra clean children appended:
the children come back unchanged behind the parse of the base form. -/
lemma splitPathParts_render_append (p : String) (rooted : Bool) (els ch : List String)
    (hclean : goClean p = renderClean rooted els)
    (_hm : ∀ e ∈ els, e ≠ "" ∧ e ≠ ".")
    (_hfree : ∀ e ∈ els, '/' ∉ e.toList)
    (hne : splitPathParts p ≠ [])
    (hch : ∀ e ∈ ch, e ≠ "" ∧ e ≠ "." ∧ e ≠ ".." ∧ ∀ x ∈ e.toList, isPathDelim x = false)
    (hchne : ch ≠ []) :
    (goFieldsFunc isPathDelim (renderClean rooted (els ++ ch))).filter
        (fun s => s ≠ "" && s ≠ "/") = splitPathParts p ++ ch := by
  have helne : els ≠ [] := (els_ne_nil_of_splitPathParts p rooted els hclean hne).1
  have hchslash : ∀ e ∈ ch, ∀ x ∈ e.toList, (x = '/' || x = '\\') = false := by
    intro e he x hx
    exact (hch e he).2.2.2 x hx
  have hchfilter : ch.filter (fun s => s ≠ "" && s ≠ "/") = ch := by
    refine List.filter_eq_self.mpr ?_
    intro e he
    have h1 := (hch e he).1
    have h2 : e ≠ "/" := by
      intro hc
      have := (hch e he).2.2.2 '/' (by rw [hc]; exact List.mem_cons_self _ _)
      exact absurd this (by decide)
    simp [h1, h2]
  have hfields : goFieldsFunc isPathDelim (renderClean rooted (els ++ ch)) =
      goFieldsFunc isPathDelim (renderClean rooted els) ++ ch := by
    rw [renderClean_append rooted els ch helne hchne]
    rw [goFieldsFunc_append_slash isPathDelim (by decide) _ (joinSlash ch)]
    rw [goFieldsFunc_joinSlash isPathDelim (by decide) ch
      (fun e he => (hch e he).1) hchslash]
  rw [hfields, List.filter_append, hchfilter,
    splitPathParts_not_dot_slash p hne, hclean]

/-- The key bridge: `splitPathParts` of `Join (Clean p, ch…)` is
`splitPathParts p ++ ch`, for clean separator-free children. -/
lemma splitPathParts_goJoin (p : String) (ch : List String)
    (hne : splitPathParts p ≠ [])
    (hch : ∀ e ∈ ch, e ≠ "" ∧ e ≠ "." ∧ e ≠ ".." ∧ ∀ x ∈ e.toList, isPathDelim x = false) :
    splitPathParts (goJoin (goClean p :: ch)) = splitPathParts p ++ ch := by
  rcases goClean_normal p with ⟨rooted, els, hclean, hm, hfree, hshape⟩
  rcases els_ne_nil_of_splitPathParts p rooted els hclean hne with ⟨helne, hnd, hns⟩
  have hcne : goClean p ≠ "" := by
    rw [hclean]
    exact renderClean_ne_empty rooted els (fun e he => (hm e he).1)
  have hfilter : (goClean p :: ch).filter (fun e => e ≠ "") = goClean p :: ch := by
    refine List.filter_eq_self.mpr ?_
    intro e he
    rcases List.mem_cons.mp he with rfl | he
    · simpa using hcne
    · simpa using (hch e he).1
  rw [goJoin]
  simp only [hfilter]
  rw [if_neg (by intro hc; cases hc)]
  rcases hchn : ch with _ | ⟨c0, ch'⟩
  · rw [show joinSlash [goClean p] = goClean p from rfl]
    rw [hclean, goClean_render_fixed rooted els hm hfree hshape helne, ← hclean,
      List.append_nil]
    show (if goClean (goClean p) = "." || goClean (goClean p) = "/" then ([] : List String) else
        (goFieldsFunc isPathDelim (goClean (goClean p))).filter (fun s => s ≠ "" && s ≠ "/"))
      = splitPathParts p
    have hfix2 : goClean (goClean p) = goClean p := by
      rw [hclean, goClean_render_fixed rooted els hm hfree hshape helne]
    rw [hfix2, if_neg (by simp [hnd, hns]), splitPathParts_not_dot_slash p hne]
  · rw [← hchn]
    have hchne : ch ≠ [] := by rw [hchn]; intro hc; cases hc
    have hjoin : joinSlash (goClean p :: ch) = renderClean rooted (els ++ ch) := by
      rw [show goClean p :: ch = [goClean p] ++ ch from rfl,
        joinSlash_append [goClean p] ch (by intro hc; cases hc) hchne,
        show joinSlash [goClean p] = goClean p from rfl, hclean,
        renderClean_append rooted els ch helne hchne]
    rw [hjoin]
    have hm2 : ∀ e ∈ els ++ ch, e ≠ "" ∧ e ≠ "." := by
      intro e he
      rcases List.mem_append.mp he with he | he
      · exact hm e he
      · exact ⟨(hch e he).1, (hch e he).2.1⟩
    have hfree2 : ∀ e ∈ els ++ ch, '/' ∉ e.toList := by
      intro e he
      rcases List.mem_append.mp he with he | he
      · exact hfree e he
      · intro hc
        have := (hch e he).2.2.2 '/' hc
        exact absurd this (by decide)
    have hshape2 : ∃ d nd, els ++ ch = List.replicate d ".." ++ nd ∧ ".." ∉ nd ∧
        (rooted = true → d = 0) := by
      rcases hshape with ⟨d, nd, hels, hnddot, hrd⟩
      refine ⟨d, nd ++ ch, by rw [hels, List.append_assoc], ?_, hrd⟩
      intro hc
      rcases List.mem_append.mp hc with hc | hc
      · exact hnddot hc
      · exact (hch ".." hc).2.2.1 rfl
    have hne2 : els ++ ch ≠ [] := by
      intro hc
      exact helne (List.append_eq_nil.mp hc).1
    have hfix := goClean_render_fixed rooted (els ++ ch) hm2 hfree2 hshape2 hne2
    have hnds2 := renderClean_not_dot_slash rooted (els ++ ch)
      (fun e he => ⟨(hm2 e he).1, (hm2 e he).2, hfree2 e he⟩) hne2
    show (if goClean (goClean (renderClean rooted (els ++ ch))) = "." ||
          goClean (goClean (renderClean rooted (els ++ ch))) = "/" then [] else
        (goFieldsFunc isPathDelim
          (goClean (goClean (renderClean rooted (els ++ ch))))).filter
          (fun s => s ≠ "" && s ≠ "/")) = splitPathParts p ++ ch
    rw [hfix, hfix, if_neg (by simp [hnds2.1, hnds2.2])]
    exact splitPathParts_render_append p rooted els ch hclean hm hfree hne hch hchne

/-! ## Remapping a mapped path: suffix windows transfer back -/

lemma suffixAt_length (RL : List String) (k : Nat) (h : k ≤ RL.length) :
    (suffixAt RL k).length = k := by
  rw [suffixAt, List.length_drop]
  omega

lemma isPrefix_drop (l1 l2 : List String) (n : Nat) (h : l1 <+: l2) :
    l1.drop n <+: l2.drop n := by
  rcases h with ⟨s, rfl⟩
  exact ⟨s.drop (n - l1.length), (List.drop_append_eq_append_drop).symm⟩

/-- A root whose full component list prefixes the local components matches
completely, at index `0`. -/
lemma ownBestK_prefix_full (RL rest : List String) (hne : RL ≠ []) :
    ownBestK (RL ++ rest) RL = RL.length ∧
      matchIdx (RL ++ rest) RL RL.length = 0 := by
  have hsfull : suffixAt RL RL.length = RL := by
    rw [suffixAt, Nat.sub_self, List.drop_zero]
  have hmatch : slideMatch (RL ++ rest) (suffixAt RL RL.length) = some 0 := by
    rw [hsfull]
    exact slideMatch_prefix_zero _ _ ⟨rest, rfl⟩
  have h1 : RL.length ≤ bestKAux (RL ++ rest) RL RL.length :=
    bestKAux_ge _ _ RL.length RL.length (List.length_pos.mpr hne) (le_refl _)
      (by rw [hmatch]; rfl)
  refine ⟨le_antisymm (ownBestK_le _ _) h1, ?_⟩
  rw [matchIdx, hmatch]
  rfl

/-- The suffix of the remapped components past the unmatched head of the
root equals the suffix of the original components past the match index. -/
lemma remap_drop_eq (LL RL : List String) (K idx : Nat)
    (hKle : K ≤ RL.length)
    (hpre : suffixAt RL K <+: LL.drop idx) :
    (RL ++ LL.drop (idx + K)).drop (RL.length - K) = LL.drop idx := by
  have hlen : (suffixAt RL K).length = K := suffixAt_length RL K hKle
  have htake : (LL.drop idx).take K = suffixAt RL K := by
    have := List.prefix_iff_eq_take.mp hpre
    rw [hlen] at this
    exact this.symm
  have hdecomp : LL.drop idx = suffixAt RL K ++ LL.drop (idx + K) := by
    conv_lhs => rw [← List.take_append_drop K (LL.drop idx)]
    rw [htake, List.drop_drop]
  rw [List.drop_append_eq_append_drop,
    show RL.length - K - RL.length = 0 from by omega, List.drop_zero,
    show RL.drop (RL.length - K) = suffixAt RL K from rfl, hdecomp]

/-- Transfer of a suffix window found in the remapped components back to
the original components. -/
lemma transfer_window (LL RL RLa : List String) (K idx ka i : Nat)
    (hKle : K ≤ RL.length)
    (hpre : suffixAt RL K <+: LL.drop idx)
    (hka1 : 1 ≤ ka) (hkale : ka ≤ RLa.length)
    (hwin : suffixAt RLa ka <+: (RL ++ LL.drop (idx + K)).drop i) :
    ka ≤ RL.length - K ∨
      ∃ k'', 1 ≤ k'' ∧ k'' ≤ ka ∧ ka ≤ k'' + (RL.length - K) ∧
        (slideMatch LL (suffixAt RLa k'')).isSome = true := by
  have hdrop := remap_drop_eq LL RL K idx hKle hpre
  by_cases hi : RL.length - K ≤ i
  · right
    refine ⟨ka, hka1, le_refl _, by omega, ?_⟩
    have hMLgen : ∀ j, (RL ++ LL.drop (idx + K)).drop ((RL.length - K) + j)
        = LL.drop (idx + j) := by
      intro j
      rw [← List.drop_drop, hdrop, List.drop_drop]
    rw [show i = (RL.length - K) + (i - (RL.length - K)) from by omega, hMLgen] at hwin
    exact slideMatch_isSome_of_prefix LL (suffixAt RLa ka) _ hwin
  · by_cases hka : ka ≤ (RL.length - K) - i
    · left
      omega
    · right
      refine ⟨ka - ((RL.length - K) - i), by omega, by omega, by omega, ?_⟩
      have hsub : suffixAt RLa (ka - ((RL.length - K) - i)) =
          (suffixAt RLa ka).drop ((RL.length - K) - i) := by
        rw [suffixAt, suffixAt, List.drop_drop]
        have harith : RLa.length - ka + ((RL.length - K) - i)
            = RLa.length - (ka - ((RL.length - K) - i)) := by omega
        rw [harith]
      have hwin2 : (suffixAt RLa ka).drop ((RL.length - K) - i) <+:
          LL.drop idx := by
        have h2 := isPrefix_drop _ _ ((RL.length - K) - i) hwin
        rw [List.drop_drop, show i + ((RL.length - K) - i) = RL.length - K from by omega,
          hdrop] at h2
        exact h2
      rw [hsub]
      exact slideMatch_isSome_of_prefix LL _ idx hwin2

/-- Upper bound on any root's best match length against the remapped
components, in terms of its best match length against the original ones. -/
lemma ownBestK_remap_le (LL RL RLa : List String) (K idx : Nat)
    (hKle : K ≤ RL.length)
    (hpre : suffixAt RL K <+: LL.drop idx) :
    ownBestK (RL ++ LL.drop (idx + K)) RLa ≤ ownBestK LL RLa + (RL.length - K) := by
  rcases Nat.eq_zero_or_pos (ownBestK (RL ++ LL.drop (idx + K)) RLa) with hz | hpos
  · omega
  · have hsome := bestKAux_isSome (RL ++ LL.drop (idx + K)) RLa RLa.length hpos
    rcases isSome_exists_slideMatch _ _ hsome with ⟨i, hi⟩
    have hwin := slideMatch_some_prefix _ _ i hi
    have hkale : ownBestK (RL ++ LL.drop (idx + K)) RLa ≤ RLa.length :=
      ownBestK_le _ _
    rcases transfer_window LL RL RLa K idx
        (ownBestK (RL ++ LL.drop (idx + K)) RLa) i hKle hpre hpos hkale hwin with
      h | ⟨k'', h1, h2, h3, hsome'⟩
    · omega
    · have hge : k'' ≤ ownBestK LL RLa :=
        bestKAux_ge LL RLa RLa.length k'' h1 (by omega) hsome'
      omega

/-- Remapping a successfully mapped path yields the same matched root and
the same children, provided the original path's components contain no
relative (`"."` / `".."`) entries. -/
lemma mapToPlexPath_remap (localPath : String) (roots : List PlexSection)
    (r : PlexSection) (m : String)
    (hrel : ∀ c ∈ splitPathParts localPath, c ≠ "." ∧ c ≠ "..")
    (h : mapToPlexPath localPath roots = (m, some r)) :
    mapToPlexPath m roots = (m, some r) ∧
      ownChildren (splitPathParts m) (toLowerList (splitPathParts m)) r
        = ownChildren (splitPathParts localPath)
            (toLowerList (splitPathParts localPath)) r := by
  have h2 : (mapToPlexPath localPath roots).2 = some r := by rw [h]
  rcases mapToPlexPath_some_spec localPath roots r h2 with
    ⟨hmem, hK1, hroot, hLne, hm1, l1, l2, hsplit, hl1, hl2⟩
  have hm_eq : m = goJoin (goClean r.rootPath ::
      ownChildren (splitPathParts localPath) (toLowerList (splitPathParts localPath)) r) := by
    have hx := hm1
    rw [h] at hx
    exact hx
  have hK1' : 1 ≤ ownBestK (toLowerList (splitPathParts localPath))
      (toLowerList (splitPathParts r.rootPath)) := hK1
  have hRne : splitPathParts r.rootPath ≠ [] := by
    intro hc
    have h0 := ownK_eq_zero_of_parts_nil localPath r hc
    omega
  have hRLne : toLowerList (splitPathParts r.rootPath) ≠ [] := by
    intro hc
    have hlc := congrArg List.length hc
    rw [toLowerList_length] at hlc
    exact hRne (List.length_eq_zero.mp hlc)
  have hKle : ownBestK (toLowerList (splitPathParts localPath))
        (toLowerList (splitPathParts r.rootPath))
      ≤ (toLowerList (splitPathParts r.rootPath)).length :=
    ownBestK_le _ _
  have hsome : (slideMatch (toLowerList (splitPathParts localPath))
      (suffixAt (toLowerList (splitPathParts r.rootPath))
        (ownBestK (toLowerList (splitPathParts localPath))
          (toLowerList (splitPathParts r.rootPath))))).isSome = true :=
    bestKAux_isSome _ _ _ hK1'
  rcases isSome_exists_slideMatch _ _ hsome with ⟨i, hi⟩
  have hidx : matchIdx (toLowerList (splitPathParts localPath))
      (toLowerList (splitPathParts r.rootPath))
      (ownBestK (toLowerList (splitPathParts localPath))
        (toLowerList (splitPathParts r.rootPath))) = i := by
    rw [matchIdx, hi]
    rfl
  have hpre := slideMatch_some_prefix _ _ i hi
  have hch_def : ownChildren (splitPathParts localPath)
      (toLowerList (splitPathParts localPath)) r
      = (splitPathParts localPath).drop (i + ownBestK
          (toLowerList (splitPathParts localPath))
          (toLowerList (splitPathParts r.rootPath))) := by
    show (splitPathParts localPath).drop
        (matchIdx (toLowerList (splitPathParts localPath))
            (toLowerList (splitPathParts r.rootPath))
            (ownBestK (toLowerList (splitPathParts localPath))
              (toLowerList (splitPathParts r.rootPath)))
          + ownBestK (toLowerList (splitPathParts localPath))
              (toLowerList (splitPathParts r.rootPath)))
      = _
    rw [hidx]
  have hchprops : ∀ e ∈ ownChildren (splitPathParts localPath)
      (toLowerList (splitPathParts localPath)) r,
      e ≠ "" ∧ e ≠ "." ∧ e ≠ ".." ∧ ∀ x ∈ e.toList, isPathDelim x = false := by
    intro e he
    rw [hch_def] at he
    have heL : e ∈ splitPathParts localPath := List.drop_subset _ _ he
    rcases mem_splitPathParts localPath e heL with ⟨h1, h2'⟩
    rcases hrel e heL with ⟨h3, h4⟩
    exact ⟨h1, h3, h4, h2'⟩
  have hM : splitPathParts m = splitPathParts r.rootPath ++
      ownChildren (splitPathParts localPath) (toLowerList (splitPathParts localPath)) r := by
    rw [hm_eq]
    exact splitPathParts_goJoin r.rootPath _ hRne hchprops
  have hML : toLowerList (splitPathParts m) =
      toLowerList (splitPathParts r.rootPath) ++
        (toLowerList (splitPathParts localPath)).drop (i + ownBestK
          (toLowerList (splitPathParts localPath))
          (toLowerList (splitPathParts r.rootPath))) := by
    rw [hM, toLowerList, List.map_append, hch_def]
    rw [show ∀ xs : List String, toLowerList xs = xs.map goToLower from fun _ => rfl,
      show ∀ xs : List String, toLowerList xs = xs.map goToLower from fun _ => rfl,
      List.map_drop]
  have hfull := ownBestK_prefix_full (toLowerList (splitPathParts r.rootPath))
    ((toLowerList (splitPathParts localPath)).drop (i + ownBestK
      (toLowerList (splitPathParts localPath))
      (toLowerList (splitPathParts r.rootPath)))) hRLne
  have hfullML : ownBestK (toLowerList (splitPathParts m))
        (toLowerList (splitPathParts r.rootPath))
      = (toLowerList (splitPathParts r.rootPath)).length ∧
      matchIdx (toLowerList (splitPathParts m)) (toLowerList (splitPathParts r.rootPath))
        ((toLowerList (splitPathParts r.rootPath)).length) = 0 := by
    rw [hML]
    exact hfull
  have hboundAll : ∀ a ∈ roots, ownBestK (toLowerList (splitPathParts m))
        (toLowerList (splitPathParts a.rootPath))
      ≤ ownBestK (toLowerList (splitPathParts m))
          (toLowerList (splitPathParts r.rootPath)) := by
    intro a ha
    have hremap := ownBestK_remap_le (toLowerList (splitPathParts localPath))
      (toLowerList (splitPathParts r.rootPath)) (toLowerList (splitPathParts a.rootPath))
      (ownBestK (toLowerList (splitPathParts localPath))
        (toLowerList (splitPathParts r.rootPath))) i hKle hpre
    rw [← hML] at hremap
    have hconva : ownK localPath a = ownBestK (toLowerList (splitPathParts localPath))
        (toLowerList (splitPathParts a.rootPath)) := rfl
    have hconvr : ownK localPath r = ownBestK (toLowerList (splitPathParts localPath))
        (toLowerList (splitPathParts r.rootPath)) := rfl
    have h2a := hl2 a ha
    rw [hconva, hconvr] at h2a
    rw [hfullML.1]
    have hsub : ownBestK (toLowerList (splitPathParts localPath))
          (toLowerList (splitPathParts a.rootPath))
        + ((toLowerList (splitPathParts r.rootPath)).length
            - ownBestK (toLowerList (splitPathParts localPath))
                (toLowerList (splitPathParts r.rootPath)))
        ≤ (toLowerList (splitPathParts r.rootPath)).length := by omega
    exact le_trans hremap hsub
  have hstrict : ∀ a ∈ l1, ownBestK (toLowerList (splitPathParts m))
        (toLowerList (splitPathParts a.rootPath))
      < ownBestK (toLowerList (splitPathParts m))
          (toLowerList (splitPathParts r.rootPath)) := by
    intro a ha
    have hremap := ownBestK_remap_le (toLowerList (splitPathParts localPath))
      (toLowerList (splitPathParts r.rootPath)) (toLowerList (splitPathParts a.rootPath))
      (ownBestK (toLowerList (splitPathParts localPath))
        (toLowerList (splitPathParts r.rootPath))) i hKle hpre
    rw [← hML] at hremap
    have hconva : ownK localPath a = ownBestK (toLowerList (splitPathParts localPath))
        (toLowerList (splitPathParts a.rootPath)) := rfl
    have hconvr : ownK localPath r = ownBestK (toLowerList (splitPathParts localPath))
        (toLowerList (splitPathParts r.rootPath)) := rfl
    have h1a := hl1 a ha
    rw [hconva, hconvr] at h1a
    rw [hfullML.1]
    have hsub : ownBestK (toLowerList (splitPathParts localPath))
          (toLowerList (splitPathParts a.rootPath))
        + ((toLowerList (splitPathParts r.rootPath)).length
            - ownBestK (toLowerList (splitPathParts localPath))
                (toLowerList (splitPathParts r.rootPath)))
        < (toLowerList (splitPathParts r.rootPath)).length := by omega
    exact lt_of_le_of_lt hremap hsub
  have hl2' : ∀ a ∈ l2, ownBestK (toLowerList (splitPathParts m))
        (toLowerList (splitPathParts a.rootPath))
      ≤ ownBestK (toLowerList (splitPathParts m))
          (toLowerList (splitPathParts r.rootPath)) := by
    intro a ha
    refine hboundAll a ?_
    rw [hsplit]
    exact List.mem_append_right l1 (List.mem_cons_of_mem r ha)
  have hb0 : ({ k := 0, children := [], root := zeroSection } : BestMatch).k
      < ownBestK (toLowerList (splitPathParts m))
          (toLowerList (splitPathParts r.rootPath)) := by
    rw [hfullML.1]
    show 0 < (toLowerList (splitPathParts r.rootPath)).length
    omega
  have hbest : bestSpec (splitPathParts m) (toLowerList (splitPathParts m))
      (l1 ++ r :: l2) { k := 0, children := [], root := zeroSection }
    = { k := ownBestK (toLowerList (splitPathParts m))
          (toLowerList (splitPathParts r.rootPath)),
        children := ownChildren (splitPathParts m) (toLowerList (splitPathParts m)) r,
        root := r } :=
    bestSpec_first_max (splitPathParts m) (toLowerList (splitPathParts m)) l1 r l2 _
      hstrict hb0 hl2'
  have hchM : ownChildren (splitPathParts m) (toLowerList (splitPathParts m)) r
      = ownChildren (splitPathParts localPath)
          (toLowerList (splitPathParts localPath)) r := by
    show (splitPathParts m).drop
        (matchIdx (toLowerList (splitPathParts m)) (toLowerList (splitPathParts r.rootPath))
            (ownBestK (toLowerList (splitPathParts m))
              (toLowerList (splitPathParts r.rootPath)))
          + ownBestK (toLowerList (splitPathParts m))
              (toLowerList (splitPathParts r.rootPath)))
      = ownChildren (splitPathParts localPath)
          (toLowerList (splitPathParts localPath)) r
    rw [hfullML.1, hfullML.2, Nat.zero_add, hM, toLowerList_length, List.drop_left]
  have hMne : splitPathParts m ≠ [] := by
    rw [hM]
    intro hc
    exact hRne (List.append_eq_nil.mp hc).1
  refine ⟨?_, hchM⟩
  rw [mapToPlexPath_eq, if_neg hMne, hsplit, hbest, if_neg hroot, hchM, ← hm_eq]
  rfl

/-! ## Pending-table lemmas for the observer event loop -/

lemma pendingStore_cons (p0 : String) (o0 : Nat) (rest : List (String × Nat))
    (q : String) (v : Nat) :
    pendingStore ((p0, o0) :: rest) q v =
      if p0 = q then (q, v) :: rest else (p0, o0) :: pendingStore rest q v := rfl

lemma pendingLookup_cons (p0 : String) (o0 : Nat) (rest : List (String × Nat))
    (q : String) :
    pendingLookup ((p0, o0) :: rest) q = if p0 = q then o0 else pendingLookup rest q := rfl

lemma pendingLookup_store_self (p : List (String × Nat)) (q : String) (v : Nat) :
    pendingLookup (pendingStore p q v) q = v := by
  induction p with
  | nil =>
      show (if q = q then v else pendingLookup [] q) = v
      rw [if_pos rfl]
  | cons pr rest ih =>
      rcases pr with ⟨p0, o0⟩
      rw [pendingStore_cons]
      by_cases hp : p0 = q
      · rw [if_pos hp, pendingLookup_cons, if_pos rfl]
      · rw [if_neg hp, pendingLookup_cons, if_neg hp, ih]

lemma pendingLookup_store_other (p : List (String × Nat)) (q q' : String) (v : Nat)
    (h : q' ≠ q) : pendingLookup (pendingStore p q v) q' = pendingLookup p q' := by
  induction p with
  | nil =>
      show (if q = q' then v else pendingLookup [] q') = pendingLookup [] q'
      rw [if_neg (fun hc => h hc.symm)]
  | cons pr rest ih =>
      rcases pr with ⟨p0, o0⟩
      rw [pendingStore_cons]
      by_cases hp : p0 = q
      · subst hp
        rw [if_pos rfl, pendingLookup_cons, pendingLookup_cons,
          if_neg (fun hc : p0 = q' => h hc.symm), if_neg (fun hc : p0 = q' => h hc.symm)]
      · rw [if_neg hp, pendingLookup_cons, pendingLookup_cons, ih]

lemma keys_store (p : List (String × Nat)) (q : String) (v : Nat) :
    (pendingStore p q v).map Prod.fst =
      if q ∈ p.map Prod.fst then p.map Prod.fst else p.map Prod.fst ++ [q] := by
  induction p with
  | nil => simp [pendingStore]
  | cons pr rest ih =>
      rcases pr with ⟨p0, o0⟩
      rw [pendingStore_cons]
      by_cases hp : p0 = q
      · rw [if_pos hp, if_pos (by simp [hp])]
        simp [hp]
      · rw [if_neg hp]
        have hmem : (q ∈ ((p0, o0) :: rest).map Prod.fst) ↔ q ∈ rest.map Prod.fst := by
          simp only [List.map_cons, List.mem_cons]
          constructor
          · rintro (rfl | hx)
            · exact absurd rfl hp
            · exact hx
          · exact Or.inr
        by_cases hq : q ∈ rest.map Prod.fst
        · rw [if_pos (hmem.mpr hq)]
          simp only [List.map_cons]
          rw [ih, if_pos hq]
        · rw [if_neg (fun hc => hq (hmem.mp hc))]
          simp only [List.map_cons]
          rw [ih, if_neg hq]
          rfl

lemma mem_keys_store (p : List (String × Nat)) (q q' : String) (v : Nat) :
    q' ∈ (pendingStore p q v).map Prod.fst ↔ q' ∈ p.map Prod.fst ∨ q' = q := by
  rw [keys_store]
  by_cases hq : q ∈ p.map Prod.fst
  · rw [if_pos hq]
    constructor
    · exact Or.inl
    · rintro (h | rfl)
      · exact h
      · exact hq
  · rw [if_neg hq]
    simp

lemma nodup_keys_store (p : List (String × Nat)) (q : String) (v : Nat)
    (h : (p.map Prod.fst).Nodup) : ((pendingStore p q v).map Prod.fst).Nodup := by
  rw [keys_store]
  by_cases hq : q ∈ p.map Prod.fst
  · rw [if_pos hq]; exact h
  · rw [if_neg hq]
    exact List.Nodup.append h (List.nodup_singleton q) (by simpa using hq)

lemma pendingLookup_of_mem (p : List (String × Nat)) (q : String) (o : Nat)
    (hnd : (p.map Prod.fst).Nodup) (h : (q, o) ∈ p) : pendingLookup p q = o := by
  induction p with
  | nil => cases h
  | cons pr rest ih =>
      rcases pr with ⟨p0, o0⟩
      rcases List.mem_cons.mp h with heq | h
      · rcases Prod.mk.injEq .. ▸ heq with ⟨h1, h2⟩
        simp [pendingLookup, h1.symm, h2]
      · have hne : p0 ≠ q := by
          intro hc
          subst hc
          have : p0 ∈ rest.map Prod.fst := List.mem_map.mpr ⟨(p0, o), h, rfl⟩
          exact (List.nodup_cons.mp hnd).1 this
        simp [pendingLookup, hne]
        exact ih (List.nodup_cons.mp hnd).2 h

/-- The accumulation step of the event loop with debouncing enabled. -/
lemma foldAccum_lookup (events : List FsEvent) :
    ∀ (p0 : List (String × Nat)) (q : String),
      pendingLookup
        (events.foldl (fun p e =>
          pendingStore p e.name (Nat.lor (pendingLookup p e.name) e.op)) p0) q
        = ((events.filter (fun e => e.name = q)).map FsEvent.op).foldl
            Nat.lor (pendingLookup p0 q) := by
  induction events with
  | nil => intro p0 q; rfl
  | cons e rest ih =>
      intro p0 q
      rw [List.foldl_cons, ih]
      by_cases hq : e.name = q
      · subst hq
        rw [List.filter_cons_of_pos (by simp), List.map_cons, List.foldl_cons,
          pendingLookup_store_self]
      · rw [List.filter_cons_of_neg (by simpa using hq),
          pendingLookup_store_other _ _ _ _ (fun hc => hq hc.symm)]

lemma foldAccum_keys (events : List FsEvent) :
    ∀ (p0 : List (String × Nat)) (q : String),
      (q ∈ ((events.foldl (fun p e =>
          pendingStore p e.name (Nat.lor (pendingLookup p e.name) e.op)) p0).map Prod.fst)
        ↔ q ∈ p0.map Prod.fst ∨ q ∈ events.map FsEvent.name) := by
  induction events with
  | nil => intro p0 q; simp
  | cons e rest ih =>
      intro p0 q
      rw [List.foldl_cons, ih, mem_keys_store]
      simp only [List.map_cons, List.mem_cons]
      constructor
      · rintro ((h | rfl) | h)
        · exact Or.inl h
        · exact Or.inr (Or.inl rfl)
        · exact Or.inr (Or.inr h)
      · rintro (h | rfl | h)
        · exact Or.inl (Or.inl h)
        · exact Or.inl (Or.inr rfl)
        · exact Or.inr h

lemma foldAccum_nodup (events : List FsEvent) :
    ∀ (p0 : List (String × Nat)), ((p0.map Prod.fst).Nodup) →
      (((events.foldl (fun p e =>
          pendingStore p e.name (Nat.lor (pendingLookup p e.name) e.op)) p0).map
            Prod.fst).Nodup) := by
  induction events with
  | nil => intro p0 h; exact h
  | cons e rest ih =>
      intro p0 h
      rw [List.foldl_cons]
      exact ih _ (nodup_keys_store _ _ _ h)

lemma runWindow_pos (debounce : Int) (events : List FsEvent) (h : 0 < debounce) :
    runWindow debounce events =
      ((events.foldl (fun p e =>
          pendingStore p e.name (Nat.lor (pendingLookup p e.name) e.op)) []).map
        (fun pr => { path := pr.1, op := pr.2 }), []) := by
  have hstep : ∀ (evs : List FsEvent) (p : List (String × Nat)) (cs : List Event),
      evs.foldl (fun (acc : List (String × Nat) × List Event) (e : FsEvent) =>
          let r := eventStep debounce acc.1 e
          (r.1, acc.2 ++ r.2)) (p, cs)
        = (evs.foldl (fun p e =>
            pendingStore p e.name (Nat.lor (pendingLookup p e.name) e.op)) p, cs) := by
    intro evs
    induction evs with
    | nil => intro p cs; rfl
    | cons e rest ih =>
        intro p cs
        rw [List.foldl_cons, List.foldl_cons]
        have he : eventStep debounce p e
            = (pendingStore p e.name (Nat.lor (pendingLookup p e.name) e.op), []) := by
          rw [eventStep, if_neg (by omega)]
        simp only [he]
        rw [ih]
        simp
  rw [runWindow]
  simp only [hstep events [] []]
  rfl

/-! # Claim theorems -/

/-! ## C1 — debounce coalescing -/

/-- C1 (confirmed): with a positive debounce window, running one window of
the observer event loop over any stream of content events invokes the
handler at most once per distinct path (the emitted paths are pairwise
distinct), every event's path is represented, each emitted event carries
the bitwise OR of all ops observed for its path, and the pending table is
empty after the flush. -/
theorem C1_debounce_window (debounce : Int) (events : List FsEvent)
    (h : 0 < debounce) :
    (((runWindow debounce events).1.map Event.path).Nodup) ∧
    (∀ e ∈ events, ∃ c ∈ (runWindow debounce events).1, c.path = e.name) ∧
    (∀ c ∈ (runWindow debounce events).1,
      c.path ∈ events.map FsEvent.name ∧ c.op = orOfOps events c.path ∧ c.hasErr = false) ∧
    ((runWindow debounce events).2 = []) := by
  rw [runWindow_pos debounce events h]
  simp only
  set F := fun (p : List (String × Nat)) (e : FsEvent) =>
    pendingStore p e.name (Nat.lor (pendingLookup p e.name) e.op) with hF
  have hkeysmap : ∀ (l : List (String × Nat)),
      (l.map (fun pr => ({ path := pr.1, op := pr.2 } : Event))).map Event.path
        = l.map Prod.fst := by
    intro l
    rw [List.map_map]
    rfl
  have hnd : ((events.foldl F []).map Prod.fst).Nodup :=
    foldAccum_nodup events [] List.Pairwise.nil
  refine ⟨?_, ?_, ?_, ?_⟩
  · rw [hkeysmap]
    exact hnd
  · intro e he
    have hkey : e.name ∈ (events.foldl F []).map Prod.fst := by
      rw [foldAccum_keys]
      exact Or.inr (List.mem_map.mpr ⟨e, he, rfl⟩)
    rcases List.mem_map.mp hkey with ⟨pr, hpr, hpr1⟩
    exact ⟨{ path := pr.1, op := pr.2 }, List.mem_map.mpr ⟨pr, hpr, rfl⟩, hpr1⟩
  · intro c hc
    rcases List.mem_map.mp hc with ⟨pr, hpr, rfl⟩
    have hkey : pr.1 ∈ (events.foldl F []).map Prod.fst :=
      List.mem_map.mpr ⟨pr, hpr, rfl⟩
    have hname : pr.1 ∈ events.map FsEvent.name := by
      rcases (foldAccum_keys events [] pr.1).mp hkey with hx | hx
      · simp at hx
      · exact hx
    refine ⟨hname, ?_, rfl⟩
    show pr.2 = orOfOps events pr.1
    have hlook : pendingLookup (events.foldl F []) pr.1 = pr.2 :=
      pendingLookup_of_mem _ _ _ hnd hpr
    rw [← hlook, hF, foldAccum_lookup events [] pr.1]
    rfl
  · trivial

/-- C1 witness: the debounce theorem at a concrete window — three events on
two paths coalesce into one call per path with OR-ed ops. -/
theorem C1_debounce_window_witness :
    (((runWindow 1 [⟨"/w/x.mkv", 1⟩, ⟨"/w/x.mkv", 2⟩, ⟨"/w/y.mkv", 2⟩]).1.map
        Event.path).Nodup) ∧
    (∀ e ∈ [(⟨"/w/x.mkv", 1⟩ : FsEvent), ⟨"/w/x.mkv", 2⟩, ⟨"/w/y.mkv", 2⟩],
      ∃ c ∈ (runWindow 1 [⟨"/w/x.mkv", 1⟩, ⟨"/w/x.mkv", 2⟩, ⟨"/w/y.mkv", 2⟩]).1,
        c.path = e.name) ∧
    (∀ c ∈ (runWindow 1 [⟨"/w/x.mkv", 1⟩, ⟨"/w/x.mkv", 2⟩, ⟨"/w/y.mkv", 2⟩]).1,
      c.path ∈ [(⟨"/w/x.mkv", 1⟩ : FsEvent), ⟨"/w/x.mkv", 2⟩, ⟨"/w/y.mkv", 2⟩].map
          FsEvent.name ∧
        c.op = orOfOps [⟨"/w/x.mkv", 1⟩, ⟨"/w/x.mkv", 2⟩, ⟨"/w/y.mkv", 2⟩] c.path ∧
        c.hasErr = false) ∧
    ((runWindow 1 [⟨"/w/x.mkv", 1⟩, ⟨"/w/x.mkv", 2⟩, ⟨"/w/y.mkv", 2⟩]).2 = []) :=
  C1_debounce_window 1 [⟨"/w/x.mkv", 1⟩, ⟨"/w/x.mkv", 2⟩, ⟨"/w/y.mkv", 2⟩] (by decide)

/-! ## C2 — ActiveScans lifecycle of the service handlers -/

/-- C2 (code bug): the Audiobookshelf handler inserts the scan target into
`activeScans` and dispatches a scan, but the scan goroutine never removes
the target when `ScanPath` returns, so a later event mapping to the same
target is dropped forever.  The Plex goroutine, by contrast, does delete
its target.  Evaluated at the failing input
`/media/audiobooks/Book/01.mp3`. -/
theorem C2_abs_target_never_removed :
    (handleAbsUpdate { path := "/media/audiobooks/Book/01.mp3", op := 1 } defaultExts []
      = (["/media/audiobooks/Book"], some "/media/audiobooks/Book")) ∧
    (absScanComplete ["/media/audiobooks/Book"] "/media/audiobooks/Book"
      = ["/media/audiobooks/Book"]) ∧
    ((handleAbsUpdate { path := "/media/audiobooks/Book/01.mp3", op := 1 } defaultExts
        ["/media/audiobooks/Book"]).2 = none) ∧
    (plexScanComplete ["/media/movies/Dune"] "/media/movies/Dune" = []) := by
  refine ⟨by decide, rfl, by decide, by decide⟩

/-! ## C3 — path mapper contract -/

/-- C3 (confirmed): `mapToPlexPath` either returns a mapped path — the
cleaned best-matching root joined with the remaining child components of
the local path, normalised to forward slashes — or the failure indicator
`("", none)`, the latter exactly when the local path has no components or
no root shares a suffix window with it; and on the spec's concrete example
`/mnt/disk/library/movies/Dune/Dune.mkv` with roots `/media/movies` and
`/media/tv` it returns `/media/movies/Dune/Dune.mkv` with matched root
`/media/movies`. -/
theorem C3_path_mapper_contract (localPath : String) (roots : List PlexSection)
    (r : PlexSection) :
    (mapToPlexPath "/mnt/disk/library/movies/Dune/Dune.mkv"
        [{ sectionKey := 1, sectionTitle := "Movies", sectionType := MediaType.movie,
           rootPath := "/media/movies" },
         { sectionKey := 2, sectionTitle := "TV", sectionType := MediaType.show,
           rootPath := "/media/tv" }]
      = ("/media/movies/Dune/Dune.mkv",
         some { sectionKey := 1, sectionTitle := "Movies", sectionType := MediaType.movie,
                rootPath := "/media/movies" })) ∧
    ((mapToPlexPath localPath roots).2 = none ↔
      (splitPathParts localPath = [] ∨ ∀ a ∈ roots, ¬ sharesSuffixWindow localPath a)) ∧
    ((mapToPlexPath localPath roots).2 = some r →
      r ∈ roots ∧ sharesSuffixWindow localPath r ∧
      ∃ children, children <:+ splitPathParts localPath ∧
        (mapToPlexPath localPath roots).1
          = goToSlash (goJoin (goClean r.rootPath :: children))) := by
  refine ⟨by decide, ?_, ?_⟩
  · rw [mapToPlexPath_none_iff]
    constructor
    · rintro (h | h)
      · exact Or.inl h
      · refine Or.inr fun a ha hs => ?_
        have := (sharesSuffixWindow_iff localPath a).mp hs
        have := h a ha
        omega
    · rintro (h | h)
      · exact Or.inl h
      · refine Or.inr fun a ha => ?_
        by_contra hpos
        have h1 : 1 ≤ ownK localPath a := by omega
        exact h a ha ((sharesSuffixWindow_iff localPath a).mpr h1)
  · intro h
    rcases mapToPlexPath_some_spec localPath roots r h with
      ⟨hmem, hpos, _, _, heq1, _⟩
    exact ⟨hmem, (sharesSuffixWindow_iff localPath r).mpr hpos,
      ownChildren (splitPathParts localPath) (toLowerList (splitPathParts localPath)) r,
      List.drop_suffix _ _, heq1⟩

/-- C3 witness: the contract applied at the spec's Dune example. -/
theorem C3_path_mapper_contract_witness :
    { sectionKey := 1, sectionTitle := "Movies", sectionType := MediaType.movie,
      rootPath := "/media/movies" } ∈
        [({ sectionKey := 1, sectionTitle := "Movies", sectionType := MediaType.movie,
            rootPath := "/media/movies" } : PlexSection),
         { sectionKey := 2, sectionTitle := "TV", sectionType := MediaType.show,
           rootPath := "/media/tv" }] ∧
    sharesSuffixWindow "/mnt/disk/library/movies/Dune/Dune.mkv"
      { sectionKey := 1, sectionTitle := "Movies", sectionType := MediaType.movie,
        rootPath := "/media/movies" } ∧
    ∃ children, children <:+ splitPathParts "/mnt/disk/library/movies/Dune/Dune.mkv" ∧
      (mapToPlexPath "/mnt/disk/library/movies/Dune/Dune.mkv"
        [{ sectionKey := 1, sectionTitle := "Movies", sectionType := MediaType.movie,
           rootPath := "/media/movies" },
         { sectionKey := 2, sectionTitle := "TV", sectionType := MediaType.show,
           rootPath := "/media/tv" }]).1
        = goToSlash (goJoin (goClean "/media/movies" :: children)) :=
  (C3_path_mapper_contract "/mnt/disk/library/movies/Dune/Dune.mkv"
    [{ sectionKey := 1, sectionTitle := "Movies", sectionType := MediaType.movie,
       rootPath := "/media/movies" },
     { sectionKey := 2, sectionTitle := "TV", sectionType := MediaType.show,
       rootPath := "/media/tv" }]
    { sectionKey := 1, sectionTitle := "Movies", sectionType := MediaType.movie,
      rootPath := "/media/movies" }).2.2 (by decide)

/-! ## C8 — remapping idempotence -/

/-- C8 counterexample: without restrictions on the local path the claim
fails.  `"/a\\../y"` hides a `".."` behind a backslash: `filepath.Clean`
(which only splits on `'/'`) keeps it, `splitPathParts` (which splits on
both separators) exposes it, so the path maps against root `"/a"` to
`"/y"` — but remapping `"/y"` finds no matching root at all, returning the
failure value instead of the same matched root. -/
theorem C8_counterexample :
    mapToPlexPath "/a\\../y"
        [{ sectionKey := 1, sectionTitle := "A", sectionType := MediaType.movie,
           rootPath := "/a" }]
      = ("/y", some { sectionKey := 1, sectionTitle := "A",
                      sectionType := MediaType.movie, rootPath := "/a" }) ∧
    mapToPlexPath "/y"
        [{ sectionKey := 1, sectionTitle := "A", sectionType := MediaType.movie,
           rootPath := "/a" }]
      = ("", none) := by
  constructor
  · decide
  · decide

/-- C8 (corrected): for every local path whose cleaned components contain
no relative (`"."` / `".."`) entries, a successful mapping is idempotent —
feeding the mapped path back into `mapToPlexPath` with the same root set
returns the very same mapped path, the same matched root, and the same
trailing child components. -/
theorem C8_remap_equivalent (localPath : String) (roots : List PlexSection)
    (r : PlexSection) (m : String)
    (hrel : noRelComponents localPath)
    (h : mapToPlexPath localPath roots = (m, some r)) :
    mapToPlexPath m roots = (m, some r) ∧
      ownChildren (splitPathParts m) (toLowerList (splitPathParts m)) r
        = ownChildren (splitPathParts localPath)
            (toLowerList (splitPathParts localPath)) r :=
  mapToPlexPath_remap localPath roots r m hrel h

/-- C8 witness: remapping the mapped Dune path returns it unchanged with
the same matched root and the same children. -/
theorem C8_remap_equivalent_witness :
    noRelComponents "/mnt/media/movies/Dune/Dune.mkv" ∧
    mapToPlexPath "/mnt/media/movies/Dune/Dune.mkv"
        [{ sectionKey := 1, sectionTitle := "Movies", sectionType := MediaType.movie,
           rootPath := "/media/movies" }]
      = ("/media/movies/Dune/Dune.mkv",
         some { sectionKey := 1, sectionTitle := "Movies",
                sectionType := MediaType.movie, rootPath := "/media/movies" }) ∧
    (mapToPlexPath "/media/movies/Dune/Dune.mkv"
        [{ sectionKey := 1, sectionTitle := "Movies", sectionType := MediaType.movie,
           rootPath := "/media/movies" }]
      = ("/media/movies/Dune/Dune.mkv",
         some { sectionKey := 1, sectionTitle := "Movies",
                sectionType := MediaType.movie, rootPath := "/media/movies" }) ∧
      ownChildren (splitPathParts "/media/movies/Dune/Dune.mkv")
          (toLowerList (splitPathParts "/media/movies/Dune/Dune.mkv"))
          { sectionKey := 1, sectionTitle := "Movies", sectionType := MediaType.movie,
            rootPath := "/media/movies" }
        = ownChildren (splitPathParts "/mnt/media/movies/Dune/Dune.mkv")
            (toLowerList (splitPathParts "/mnt/media/movies/Dune/Dune.mkv"))
            { sectionKey := 1, sectionTitle := "Movies", sectionType := MediaType.movie,
              rootPath := "/media/movies" }) :=
  ⟨show ∀ c ∈ splitPathParts "/mnt/media/movies/Dune/Dune.mkv", c ≠ "." ∧ c ≠ ".."
      from by decide,
   by decide,
   C8_remap_equivalent "/mnt/media/movies/Dune/Dune.mkv"
     [{ sectionKey := 1, sectionTitle := "Movies", sectionType := MediaType.movie,
        rootPath := "/media/movies" }]
     { sectionKey := 1, sectionTitle := "Movies", sectionType := MediaType.movie,
       rootPath := "/media/movies" }
     "/media/movies/Dune/Dune.mkv"
     (show ∀ c ∈ splitPathParts "/mnt/media/movies/Dune/Dune.mkv", c ≠ "." ∧ c ≠ ".."
       from by decide)
     (by decide)⟩

/-! ## C10 — tie-breaking among roots -/

/-- C10 (confirmed): the matched root of `mapToPlexPath` is the earliest
root in the list achieving the maximal suffix-match length — a candidate
replaces the running best only when its match length is strictly greater —
and when the root list is sorted by root-path length descending (as
`NewScanner` sorts it), a root tied in match length with the winner has a
root path no longer than the winner's. -/
theorem C10_tie_breaking (localPath : String) (roots : List PlexSection)
    (r r' : PlexSection) :
    ((mapToPlexPath localPath roots).2 = some r →
      ∃ l1 l2, roots = l1 ++ r :: l2 ∧ 1 ≤ ownK localPath r ∧
        (∀ a ∈ l1, ownK localPath a < ownK localPath r) ∧
        (∀ a ∈ roots, ownK localPath a ≤ ownK localPath r)) ∧
    (rootsSortedByLenDesc roots → (mapToPlexPath localPath roots).2 = some r →
      r' ∈ roots → ownK localPath r' = ownK localPath r →
      r'.rootPath.length ≤ r.rootPath.length) := by
  constructor
  · intro h
    rcases mapToPlexPath_some_spec localPath roots r h with
      ⟨_, hpos, _, _, _, l1, l2, hsplit, hl1, hall⟩
    exact ⟨l1, l2, hsplit, hpos, hl1, hall⟩
  · intro hsorted h hr' htie
    rcases mapToPlexPath_some_spec localPath roots r h with
      ⟨_, hpos, _, _, _, l1, l2, hsplit, hl1, hall⟩
    rw [hsplit] at hr' hsorted
    rcases List.mem_append.mp hr' with hr' | hr'
    · exact absurd htie (by have := hl1 r' hr'; omega)
    · rcases List.mem_cons.mp hr' with rfl | hr'
      · exact le_refl _
      · rcases (List.pairwise_append.mp hsorted) with ⟨_, hp2, _⟩
        exact (List.pairwise_cons.mp hp2).1 r' hr'

/-- C10 witness: the tie-breaking theorem at a concrete tie — roots
`/media/audiobooks` and `/audiobooks` both match `/data/audiobooks/book.mp3`
with length-1 suffix windows; sorted longest-first, the longer root wins. -/
theorem C10_tie_breaking_witness :
    ("/audiobooks" : String).length ≤ ("/media/audiobooks" : String).length :=
  (C10_tie_breaking "/data/audiobooks/book.mp3"
    [{ sectionKey := 3, sectionTitle := "AB", sectionType := MediaType.movie,
       rootPath := "/media/audiobooks" },
     { sectionKey := 4, sectionTitle := "AB2", sectionType := MediaType.movie,
       rootPath := "/audiobooks" }]
    { sectionKey := 3, sectionTitle := "AB", sectionType := MediaType.movie,
      rootPath := "/media/audiobooks" }
    { sectionKey := 4, sectionTitle := "AB2", sectionType := MediaType.movie,
      rootPath := "/audiobooks" }).2
    (by rw [rootsSortedByLenDesc]; decide) (by decide) (by decide) (by decide)

/-! ## C4 — show-level scan path -/

/-- C4 (code bug): `GetScanPath` on
`/media/shows/Breaking Bad/Season 01/S01E01.mkv` with type `show` returns
the relative path `media/shows/Breaking Bad/S01E01.mkv` — the leading
slash is lost (`filepath.Join` drops the empty first component of the
split) and the episode file name is retained — instead of the claimed
`/media/shows/Breaking Bad`.  Moreover season components are stripped at
any position, not only trailing ones. -/
theorem C4_show_scan_path_eval :
    (getScanPath "/media/shows/Breaking Bad/Season 01/S01E01.mkv" MediaType.show
        = "media/shows/Breaking Bad/S01E01.mkv") ∧
    (getScanPath "/media/shows/Breaking Bad/Season 01/S01E01.mkv" MediaType.show
        ≠ "/media/shows/Breaking Bad") ∧
    (getScanPath "/a/Season 2/b/c.mkv" MediaType.show = "a/b/c.mkv") := by
  refine ⟨rfl, by decide, rfl⟩

/-! ## C5 — service routing -/

/-- C5 (counterexample): `findServiceForPath` checks a raw string prefix
with no path-component boundary, so an event under `/media/movies-new` IS
routed to the watch dir for `/media/movies`, contrary to the claim that it
is not. -/
theorem C5_boundary_counterexample :
    findServiceForPath "/media/movies-new/a.mkv"
        [{ path := "/media/movies", service := "plex", enabled := true }] = "plex" ∧
    ("plex" : String) ≠ "" := by
  refine ⟨by decide, by decide⟩

/-- C5 (amended): dispatch routing picks an enabled watch dir whose
cleaned, lower-cased path is a longest *string* prefix of the cleaned,
lower-cased event path — with no component-boundary requirement — and
returns the empty service (dropping the event) exactly when no enabled
watch dir prefix-matches. -/
theorem C5_longest_prefix_routing (eventPath : String) (dirs : List WatchDir) :
    ((∀ d ∈ dirs, ¬ dirMatches (goToLower (goClean eventPath)) d) →
      findServiceForPath eventPath dirs = "") ∧
    (∀ d₀ ∈ dirs, dirMatches (goToLower (goClean eventPath)) d₀ →
      ∃ d ∈ dirs, dirMatches (goToLower (goClean eventPath)) d ∧
        findServiceForPath eventPath dirs = d.service ∧
        ∀ d' ∈ dirs, dirMatches (goToLower (goClean eventPath)) d' →
          dirMatchLen d' ≤ dirMatchLen d) := by
  constructor
  · intro hnone
    rcases routeLoop_spec (goToLower (goClean eventPath)) dirs
        { longestMatch := "", matchedService := "" } with ⟨heq, _⟩ | ⟨d, hd, hm, _⟩
    · show (routeLoop _ dirs _).matchedService = ""
      rw [heq]
    · exact absurd hm (hnone d hd)
  · intro d₀ hd₀ hm₀
    rcases routeLoop_spec (goToLower (goClean eventPath)) dirs
        { longestMatch := "", matchedService := "" } with ⟨_, hbound⟩ | ⟨d, hd, hm, hs, _, _, hmax⟩
    · exfalso
      have h1 : dirMatchLen d₀ ≤ 0 := by
        simpa using hbound d₀ hd₀ hm₀
      have h2 : 0 < dirMatchLen d₀ := by
        refine string_length_pos_of_ne _ ?_
        intro hemp
        exact goClean_ne_empty d₀.path ((goToLower_eq_empty_iff _).mp hemp)
      exact absurd h1 (Nat.not_le_of_lt h2)
    · exact ⟨d, hd, hm, hs, hmax⟩

/-- C5 witness: the amended routing theorem at the spec scenario — the
event `/media/audiobooks/A/01.mp3` with nested watch dirs `/media` (plex)
and `/media/audiobooks` (audiobookshelf). -/
theorem C5_longest_prefix_routing_witness :
    ∃ d ∈ [{ path := "/media", service := "plex", enabled := true },
           { path := "/media/audiobooks", service := "audiobookshelf", enabled := true }],
      dirMatches (goToLower (goClean "/media/audiobooks/A/01.mp3")) d ∧
      findServiceForPath "/media/audiobooks/A/01.mp3"
        [{ path := "/media", service := "plex", enabled := true },
         { path := "/media/audiobooks", service := "audiobookshelf", enabled := true }] = d.service ∧
      ∀ d' ∈ [({ path := "/media", service := "plex", enabled := true } : WatchDir),
              { path := "/media/audiobooks", service := "audiobookshelf", enabled := true }],
        dirMatches (goToLower (goClean "/media/audiobooks/A/01.mp3")) d' →
          dirMatchLen d' ≤ dirMatchLen d :=
  (C5_longest_prefix_routing "/media/audiobooks/A/01.mp3" _).2
    { path := "/media/audiobooks", service := "audiobookshelf", enabled := true }
    (by decide) (by decide)

/-! ## C6 — idempotent Stop -/

/-- C6 (counterexample): `Manager.Stop` on a non-running manager returns
the error `"watcher not running"`, not a nil error as the claim states
(the state is indeed unchanged). -/
theorem C6_counterexample :
    (managerStop none { running := false, hasCancel := false }
      = ({ running := false, hasCancel := false }, some "watcher not running")) ∧
    (managerStop none { running := false, hasCancel := false }).2 ≠ none := by
  refine ⟨by decide, by decide⟩

/-- C6 (amended): `Manager.Stop` on a non-running manager returns the
error `"watcher not running"` and performs no state change. -/
theorem C6_stop_not_running (watcherStopErr : Option String) (m : ManagerState)
    (h : m.running = false) :
    managerStop watcherStopErr m = (m, some "watcher not running") := by
  rw [managerStop, h]
  rfl

/-- C6 witness: the amended Stop theorem at a concrete non-running state. -/
theorem C6_stop_not_running_witness :
    managerStop (some "boom") { running := false, hasCancel := true }
      = ({ running := false, hasCancel := true }, some "watcher not running") :=
  C6_stop_not_running (some "boom") { running := false, hasCancel := true } rfl

/-! ## C7 — concurrency bound -/

/-- C7 (confirmed): under the scan-semaphore discipline — every dispatched
scan goroutine acquires a semaphore slot before the scan call and releases
it afterwards — every reachable interleaving has at most `cap` goroutines
executing scan calls, where `cap` is `CONCURRENCY_LIMIT` (default 10)
coerced to a minimum of 1 by `NewAPI`. -/
theorem C7_concurrency_bound (envVal : Option String) (s : List ScanPhase)
    (h : SemReachable (semaphoreCapacity envVal) s) :
    countRunning s ≤ semaphoreCapacity envVal ∧
    1 ≤ semaphoreCapacity envVal ∧
    semaphoreCapacity none = 10 := by
  refine ⟨?_, ?_, rfl⟩
  · induction h with
    | init ts hts =>
        rw [countRunning_all_waiting ts hts]
        exact Nat.zero_le _
    | step hreach hstep ih =>
        cases hstep with
        | acquire l1 l2 hlt =>
            have h1 : countRunning (l1 ++ ScanPhase.waiting :: l2)
                = countRunning l1 + (0 + countRunning l2) := by
              rw [countRunning_append]; rfl
            have h2 : countRunning (l1 ++ ScanPhase.running :: l2)
                = countRunning l1 + (1 + countRunning l2) := by
              rw [countRunning_append]; rfl
            rw [h1] at hlt
            rw [h2]
            omega
        | release l1 l2 =>
            have h1 : countRunning (l1 ++ ScanPhase.running :: l2)
                = countRunning l1 + (1 + countRunning l2) := by
              rw [countRunning_append]; rfl
            have h2 : countRunning (l1 ++ ScanPhase.finished :: l2)
                = countRunning l1 + (0 + countRunning l2) := by
              rw [countRunning_append]; rfl
            rw [h1] at ih
            rw [h2]
            omega
  · rw [semaphoreCapacity, newApiConcurrency]
    split
    · decide
    · next hpos => omega

/-- C7 witness: the bound at the default capacity, for the state reached
by dispatching one goroutine and letting it acquire the semaphore. -/
theorem C7_concurrency_bound_witness :
    countRunning [ScanPhase.running] ≤ semaphoreCapacity none ∧
    1 ≤ semaphoreCapacity none ∧
    semaphoreCapacity none = 10 :=
  C7_concurrency_bound none [ScanPhase.running]
    (SemReachable.step
      (SemReachable.init [ScanPhase.waiting] (by decide))
      (SemStep.acquire [] [] (by decide)))

/-! ## C9 — manual scan processing -/

/-- C9 (counterexample): `handlePlexManualScan` performs no deduplication —
the same path twice in one request dispatches the same target twice. -/
theorem C9_manual_scan_duplicate :
    (manualScanTargets defaultExts
        [{ sectionKey := 1, sectionTitle := "Movies", sectionType := MediaType.movie,
           rootPath := "/media/movies" }]
        ["/media/movies/Dune/Dune.mkv", "/media/movies/Dune/Dune.mkv"]
      = ["/media/movies/Dune", "/media/movies/Dune"]) ∧
    ¬ (manualScanTargets defaultExts
        [{ sectionKey := 1, sectionTitle := "Movies", sectionType := MediaType.movie,
           rootPath := "/media/movies" }]
        ["/media/movies/Dune/Dune.mkv", "/media/movies/Dune/Dune.mkv"]).Nodup := by
  refine ⟨by decide, by decide⟩

/-- C9 (amended): each requested path of a manual `/scan` is processed
independently (no debounce, no deduplication — concatenating requests
concatenates the dispatched targets): a path that does not map is skipped,
an extensionless path is dispatched at its mapped path as-is, a path with
an allowed extension at the parent directory of its mapped path, and a
path with a disallowed extension is skipped. -/
theorem C9_manual_scan_processing (allowedExts : List String)
    (roots : List PlexSection) (paths more : List String) (p : String) :
    (manualScanTargets allowedExts roots (paths ++ more)
      = manualScanTargets allowedExts roots paths ++ manualScanTargets allowedExts roots more) ∧
    ((mapToPlexPath p roots).2 = none → manualScanTargets allowedExts roots [p] = []) ∧
    (∀ sec, (mapToPlexPath p roots).2 = some sec → goToLower (goExt p) = "" →
      manualScanTargets allowedExts roots [p] = [goToSlash (mapToPlexPath p roots).1]) ∧
    (∀ sec, (mapToPlexPath p roots).2 = some sec → goToLower (goExt p) ≠ "" →
      ensureExtAllowed p allowedExts = true →
      manualScanTargets allowedExts roots [p]
        = [goToSlash (goDir (mapToPlexPath p roots).1)]) ∧
    (goToLower (goExt p) ≠ "" → ensureExtAllowed p allowedExts = false →
      manualScanTargets allowedExts roots [p] = []) := by
  refine ⟨List.filterMap_append _ _ _, ?_, ?_, ?_, ?_⟩
  · intro hnone
    rcases hmp : mapToPlexPath p roots with ⟨mp, sec⟩
    rw [hmp] at hnone
    simp only at hnone
    subst hnone
    simp [manualScanTargets, manualScanTarget, hmp]
  · intro sec hsec hext
    rcases hmp : mapToPlexPath p roots with ⟨mp, sec'⟩
    rw [hmp] at hsec
    simp only at hsec
    subst hsec
    simp [manualScanTargets, manualScanTarget, hmp, hext]
  · intro sec hsec hext hallow
    rcases hmp : mapToPlexPath p roots with ⟨mp, sec'⟩
    rw [hmp] at hsec
    simp only at hsec
    subst hsec
    simp [manualScanTargets, manualScanTarget, hmp, hext, hallow]
  · intro hext hallow
    rcases hmp : mapToPlexPath p roots with ⟨mp, sec'⟩
    rcases sec' with _ | sec'
    · simp [manualScanTargets, manualScanTarget, hmp]
    · simp [manualScanTargets, manualScanTarget, hmp, hext, hallow]

/-- C9 witness: the amended manual-scan theorem at concrete inputs — an
extensionless directory path and a disallowed-extension path. -/
theorem C9_manual_scan_processing_witness :
    manualScanTargets defaultExts
        [{ sectionKey := 1, sectionTitle := "Movies", sectionType := MediaType.movie,
           rootPath := "/media/movies" }]
        ["/media/movies/Dune"]
      = [goToSlash (mapToPlexPath "/media/movies/Dune"
            [{ sectionKey := 1, sectionTitle := "Movies", sectionType := MediaType.movie,
               rootPath := "/media/movies" }]).1] ∧
    manualScanTargets defaultExts
        [{ sectionKey := 1, sectionTitle := "Movies", sectionType := MediaType.movie,
           rootPath := "/media/movies" }]
        ["/media/movies/Dune/notes.txt"]
      = [] :=
  ⟨(C9_manual_scan_processing defaultExts _ [] [] _).2.2.1
      { sectionKey := 1, sectionTitle := "Movies", sectionType := MediaType.movie,
        rootPath := "/media/movies" } (by decide) (by decide),
   (C9_manual_scan_processing defaultExts _ [] [] _).2.2.2.2 (by decide) (by decide)⟩

end PlexWatcher
